import Mathlib

/-!
Verification of pg_num2int_direct_comp (src/pg_num2int_direct_comp.c).

The development shallow-embeds the extension's numeric digit model,
the numeric-vs-int64 comparators, the predicate simplifier helpers and
the hash adapters, and proves the frozen specification claims about them.

A PostgreSQL `Numeric` is modelled by `PGNumeric`: either one of the three
special header patterns (NaN, +Infinity, -Infinity) or a finite value made
of a sign flag, a signed weight and a list of base-10000 digits (most
significant first), exactly the information the C code reads through its
NUM2INT_NUMERIC_* accessor macros.  Machine `int64` values are modelled as
`Int` together with the explicit bounds `int64Min`/`int64Max`; every C
overflow check is translated literally, so the accumulators never need
wrap-around semantics.
-/

/-- Largest 64-bit signed integer, PG_INT64_MAX in the C source. -/
def int64Max : Int := 9223372036854775807

/-- Smallest 64-bit signed integer, PG_INT64_MIN in the C source. -/
def int64Min : Int := -9223372036854775808

/-- Type OID of int2 (smallint) in PostgreSQL. -/
def INT2OID : Nat := 21

/-- Type OID of int4 (integer) in PostgreSQL. -/
def INT4OID : Nat := 23

/-- Type OID of int8 (bigint) in PostgreSQL. -/
def INT8OID : Nat := 20

/-- Model of a PostgreSQL Numeric datum as read by the NUM2INT macros:
either a special header (NaN, +Inf, -Inf) or sign, weight and the
base-10000 digit array (most significant digit first). -/
inductive PGNumeric where
  | nan : PGNumeric
  | pinf : PGNumeric
  | ninf : PGNumeric
  | finite (neg : Bool) (weight : Int) (digits : List Nat) : PGNumeric
deriving DecidableEq

/-- Value of a big-endian base-10000 digit list continuing from accumulator
`a`; this is the digit-walk `a = a * NBASE + digit` of the C source. -/
def natValFrom (a : Nat) (ds : List Nat) : Nat :=
  ds.foldl (fun x d => x * 10000 + d) a

/-- Value of a big-endian base-10000 digit list. -/
def natVal (ds : List Nat) : Nat := natValFrom 0 ds

/-- Digit list zero-padded on the right up to length `L`, mirroring the C
loops that read `(i < ndigits) ? digits[i] : 0` for `i` up to the weight. -/
def padTo (ds : List Nat) (L : Nat) : List Nat :=
  ds ++ List.replicate (L - ds.length) 0

/-- Well-formed digit list of a canonical PostgreSQL Numeric: every digit is
below NBASE = 10000 and, when digits are present, the first and the last
stored digit are nonzero (PostgreSQL strips leading and trailing zero
digits when building a Numeric). -/
def NumericWF (digits : List Nat) : Prop :=
  (∀ d ∈ digits, d < 10000) ∧ digits.head? ≠ some 0 ∧ digits.getLast? ≠ some 0

instance (digits : List Nat) : Decidable (NumericWF digits) := by
  unfold NumericWF; infer_instance

/-- Exact rational value denoted by a `PGNumeric`.  A finite value with `n`
digits and weight `w` denotes `sign * natVal digits * 10000 ^ (w + 1 - n)`;
the three special values are given the placeholder 0 (claims about them
never consult `valQ`). -/
def PGNumeric.valQ : PGNumeric → ℚ
  | .finite neg w digits =>
      (if neg then -1 else 1) * (natVal digits : ℚ) *
        (10000 : ℚ) ^ (w + 1 - (digits.length : Int))
  | _ => 0

/-- Translation of `num2int_numeric_sign` (pg_num2int_direct_comp.c:120):
0 for NaN and for zero (no digits), +1 for +Inf and positive values,
-1 for -Inf and negative values. -/
def num2int_numeric_sign : PGNumeric → Int
  | .nan => 0
  | .pinf => 1
  | .ninf => -1
  | .finite neg _ digits =>
      if digits.length = 0 then 0
      else if neg then -1 else 1

/-- Translation of `num2int_numeric_is_integral` (c:156): NaN is not
integral, infinities are, zero is, and otherwise the value is integral
when `ndigits <= weight + 1`. -/
def num2int_numeric_is_integral : PGNumeric → Bool
  | .nan => false
  | .pinf => true
  | .ninf => true
  | .finite _ w digits =>
      if digits.length = 0 then true
      else if (digits.length : Int) ≤ w + 1 then true else false

/-- Digit-accumulation loop of `num2int_numeric_to_int64` (c:237) for a
positive sign, and also the integral-digit loop of
`num2int_numeric_floor_to_int64` (c:340) and of the fractional branch of
`numeric_cmp_int64_direct` (c:1313): multiply-overflow and add-overflow are
checked before each step exactly as in C; `none` models `return false`. -/
def accLoop : List Nat → Int → Option Int
  | [], val => some val
  | d :: rest, val =>
      if int64Max / 10000 < val then none
      else
        if int64Max - val * 10000 < (d : Int) then none
        else accLoop rest (val * 10000 + (d : Int))

/-- Digit-accumulation loop of `num2int_numeric_to_int64` (c:237) for a
negative sign: identical overflow checks, except that when the addition
overflows at the last digit with magnitude exactly `PG_INT64_MAX + 1` the C
code returns `PG_INT64_MIN` directly (c:263); the final result is negated. -/
def accLoopNeg : List Nat → Int → Option Int
  | [], val => some (-val)
  | d :: rest, val =>
      if int64Max / 10000 < val then none
      else
        if int64Max - val * 10000 < (d : Int) then
          if val * 10000 = int64Max - (d : Int) + 1 ∧ rest = [] then some int64Min
          else none
        else accLoopNeg rest (val * 10000 + (d : Int))

/-- Translation of `num2int_numeric_to_int64` (c:194).  `none` models
`return false` (special value, fractional digits, or 64-bit overflow). -/
def num2int_numeric_to_int64 : PGNumeric → Option Int
  | .nan => none
  | .pinf => none
  | .ninf => none
  | .finite neg w digits =>
      if digits.length = 0 then some 0
      else if w + 1 < (digits.length : Int) then none
      else if 4 < w then none
      else
        if neg then accLoopNeg (padTo digits (w + 1).toNat) 0
        else accLoop (padTo digits (w + 1).toNat) 0

/-- Translation of `num2int_numeric_floor_to_int64` (c:289).  The C function
requires a non-special argument (the caller checks); the special patterns
are mapped to `none` here.  For fractional negative values the floor is
`-magnitude - 1`, rounding toward negative infinity. -/
def num2int_numeric_floor_to_int64 : PGNumeric → Option Int
  | .nan => none
  | .pinf => none
  | .ninf => none
  | .finite neg w digits =>
      if digits.length = 0 then some 0
      else if 4 < w then none
      else if w + 1 ≤ 0 then some (if neg then -1 else 0)
      else if (digits.length : Int) ≤ w + 1 then
        num2int_numeric_to_int64 (.finite neg w digits)
      else
        match accLoop (digits.take (w + 1).toNat) 0 with
        | none => none
        | some floor_val => some (if neg then -floor_val - 1 else floor_val)

/-- Translation of `numeric_cmp_int64_direct` (c:1226): three-way comparison
of a Numeric against an int64, with the special-value convention, the sign
fast path, direct extraction, and the local floor computation for
fractional values. -/
def numeric_cmp_int64_direct (num : PGNumeric) (val : Int) : Int :=
  match num with
  | .nan => 1
  | .pinf => 1
  | .ninf => -1
  | .finite neg w digits =>
      let num := PGNumeric.finite neg w digits
      let num_sign := num2int_numeric_sign num
      let val_sign : Int := if 0 < val then 1 else if val < 0 then -1 else 0
      if num_sign ≠ val_sign then
        if num_sign < val_sign then -1 else 1
      else if num_sign = 0 then 0
      else
        match num2int_numeric_to_int64 num with
        | some num_as_int64 =>
            if num_as_int64 < val then -1
            else if val < num_as_int64 then 1
            else 0
        | none =>
            if num2int_numeric_is_integral num then num_sign
            else if 4 < w then num_sign
            else if w + 1 ≤ 0 then
              if (if 0 < num_sign then (0 : Int) else -1) < val then -1 else 1
            else
              match accLoop (digits.take (w + 1).toNat) 0 with
              | none => num_sign
              | some fv =>
                  if (if num_sign < 0 then -fv - 1 else fv) < val then -1 else 1

/-- Translation of `numeric_eq_int64_direct` (c:1361), the equality-only
fast path. -/
def numeric_eq_int64_direct (num : PGNumeric) (val : Int) : Bool :=
  match num with
  | .nan => false
  | .pinf => false
  | .ninf => false
  | .finite neg w digits =>
      let num := PGNumeric.finite neg w digits
      let num_sign := num2int_numeric_sign num
      let val_sign : Int := if 0 < val then 1 else if val < 0 then -1 else 0
      if num_sign ≠ val_sign then false
      else if num_sign = 0 then true
      else
        match num2int_numeric_to_int64 num with
        | some num_as_int64 => num_as_int64 = val
        | none => false

/-- Translation of `numeric_cmp_int2_internal` (c:1393): the int2 operand is
widened to int64 and compared by `numeric_cmp_int64_direct`. -/
def numeric_cmp_int2_internal (num : PGNumeric) (val : Int) : Int :=
  numeric_cmp_int64_direct num val

/-- Translation of `numeric_cmp_int4_internal` (c:1404). -/
def numeric_cmp_int4_internal (num : PGNumeric) (val : Int) : Int :=
  numeric_cmp_int64_direct num val

/-- Translation of `numeric_cmp_int8_internal` (c:1412). -/
def numeric_cmp_int8_internal (num : PGNumeric) (val : Int) : Int :=
  numeric_cmp_int64_direct num val

/-!  Predicate simplifier (num2int_support, SupportRequestSimplify branch). -/

/-- Operator classification `OpType` (pg_num2int_direct_comp.h:279). -/
inductive OpType where
  | unknown : OpType
  | eq : OpType
  | ne : OpType
  | lt : OpType
  | gt : OpType
  | le : OpType
  | ge : OpType
deriving DecidableEq

/-- Result of constant conversion, struct `ConstConversion` (c:592). -/
structure ConstConversion where
  valid : Bool
  has_fraction : Bool
  out_of_range_high : Bool
  out_of_range_low : Bool
  int_val : Int
deriving DecidableEq

/-- Translation of `int_type_index` (c:805). -/
def int_type_index (int_type : Nat) : Nat :=
  if int_type = INT2OID then 0
  else if int_type = INT4OID then 1
  else 2

/-- The native operator OID table `native_op_oids` (c:818), with the
NUM2INT_INT* operator OID constants from the header (h:94-116). -/
def native_op_oids : List (List Nat) :=
  [[94, 96, 410],    -- OP_TYPE_EQ: int2=, int4=, int8=
   [519, 518, 411],  -- OP_TYPE_NE
   [95, 97, 412],    -- OP_TYPE_LT
   [520, 521, 413],  -- OP_TYPE_GT
   [522, 523, 414],  -- OP_TYPE_LE
   [524, 525, 415]]  -- OP_TYPE_GE

/-- Row index of an operator type inside `native_op_oids` (`op_type - 1`
in the C table lookup). -/
def opTypeRow : OpType → Nat
  | .unknown => 0
  | .eq => 0
  | .ne => 1
  | .lt => 2
  | .gt => 3
  | .le => 4
  | .ge => 5

/-- Translation of `get_native_op_oid` (c:833); 0 models InvalidOid. -/
def get_native_op_oid (op_type : OpType) (int_type : Nat) : Nat :=
  if op_type = .unknown then 0
  else ((native_op_oids.getD (opTypeRow op_type) []).getD (int_type_index int_type) 0)

/-- Maximum representable value of the column integer type, the
`type_max` selection inside `compute_range_transform` (c:911-917). -/
def typeMaxOf (int_type : Nat) : Int :=
  if int_type = INT2OID then 32767
  else if int_type = INT4OID then 2147483647
  else int64Max

/-- Outcome of `compute_range_transform`: chosen native operator OID,
adjusted constant, and the two always-true/always-false flags the C
function returns through out parameters. -/
structure RangeTransform where
  oid : Nat
  adjusted : Int
  alwaysTrue : Bool
  alwaysFalse : Bool
deriving DecidableEq

/-- Translation of `compute_range_transform` (c:900): for fractional
constants, `>`/`>=` become `>=` against `floor + 1` (folding to always
false at the type maximum) and `<`/`<=` become `<=` against `floor`
(folding to always true at the type maximum); integral constants keep
their operator. -/
def compute_range_transform (op_type : OpType) (int_type : Nat)
    (int_val : Int) (has_fraction : Bool) : RangeTransform :=
  let type_max := typeMaxOf int_type
  if has_fraction then
    if op_type = .gt ∨ op_type = .ge then
      if type_max ≤ int_val then ⟨0, int_val, false, true⟩
      else ⟨get_native_op_oid .ge int_type, int_val + 1, false, false⟩
    else
      if type_max ≤ int_val then ⟨0, int_val, true, false⟩
      else ⟨get_native_op_oid .le int_type, int_val, false, false⟩
  else ⟨get_native_op_oid op_type int_type, int_val, false, false⟩

/-- Translation of the NUMERICOID branch of `convert_const_to_int`
(c:659-719): floor extraction via the digit walk, then width-specific
range classification; extraction failure turns into an out-of-range flag
chosen by the sign. -/
def convert_const_to_int (num : PGNumeric) (int_type : Nat) : ConstConversion :=
  match num with
  | .nan => ⟨false, false, false, false, 0⟩
  | .pinf => ⟨false, false, false, false, 0⟩
  | .ninf => ⟨false, false, false, false, 0⟩
  | .finite neg w digits =>
      let num := PGNumeric.finite neg w digits
      let hf := !num2int_numeric_is_integral num
      match num2int_numeric_floor_to_int64 num with
      | some v =>
          if int_type = INT2OID then
            if v < -32768 then ⟨false, hf, false, true, v⟩
            else if 32767 < v then ⟨false, hf, true, false, v⟩
            else ⟨true, hf, false, false, v⟩
          else if int_type = INT4OID then
            if v < -2147483648 then ⟨false, hf, false, true, v⟩
            else if 2147483647 < v then ⟨false, hf, true, false, v⟩
            else ⟨true, hf, false, false, v⟩
          else ⟨true, hf, false, false, v⟩
      | none =>
          if num2int_numeric_sign num < 0 then ⟨false, hf, false, true, 0⟩
          else ⟨false, hf, true, false, 0⟩

/-- Outcome of the SupportRequestSimplify branch of `num2int_support`:
either no transformation, a boolean constant, or a rewritten native
predicate `column <op> value` of the column's integer type. -/
inductive SimplifyResult where
  | noChange : SimplifyResult
  | boolConst (b : Bool) : SimplifyResult
  | native (opOid : Nat) (intType : Nat) (value : Int) : SimplifyResult
deriving DecidableEq

/-- Translation of the SupportRequestSimplify branch of `num2int_support`
(c:1075-1199), after the operand-shape checks: an unclassified operator
(InvalidOid from `find_operator_by_funcid`) yields no change; out-of-range
constants fold to a boolean constant by operator kind; NaN/Inf constants
(invalid conversion) yield no change; equality and inequality handle the
fractional case; ordering operators go through
`compute_range_transform`. -/
def num2int_support_simplify (op_type : OpType) (int_type : Nat)
    (conv : ConstConversion) : SimplifyResult :=
  if op_type = .unknown then .noChange
  else if conv.out_of_range_high || conv.out_of_range_low then
    match op_type with
    | .unknown => .noChange
    | .eq => .boolConst false
    | .ne => .boolConst true
    | .lt => .boolConst conv.out_of_range_high
    | .le => .boolConst conv.out_of_range_high
    | .gt => .boolConst conv.out_of_range_low
    | .ge => .boolConst conv.out_of_range_low
  else if !conv.valid then .noChange
  else
    match op_type with
    | .unknown => .noChange
    | .eq =>
        if conv.has_fraction then .boolConst false
        else .native (get_native_op_oid .eq int_type) int_type conv.int_val
    | .ne =>
        if conv.has_fraction then .boolConst true
        else .native (get_native_op_oid .ne int_type) int_type conv.int_val
    | op =>
        let r := compute_range_transform op int_type conv.int_val conv.has_fraction
        if r.alwaysTrue then .boolConst true
        else if r.alwaysFalse then .boolConst false
        else .native r.oid int_type r.adjusted

/-- Full simplifier pipeline for a predicate whose constant operand is a
Numeric: constant conversion followed by the simplify branch, as
`num2int_support` performs for a NUMERICOID constant. -/
def simplifyNumericPred (op_type : OpType) (int_type : Nat)
    (num : PGNumeric) : SimplifyResult :=
  num2int_support_simplify op_type int_type (convert_const_to_int num int_type)

/-!  Float comparators.  An IEEE float4/float8 datum is modelled by
`FloatVal`: NaN, an infinity, or a finite value given by its exact
rational.  The int-to-float conversions performed by the C casts are
modelled by explicit round-to-nearest-even at 24-bit (float4) or 53-bit
(float8) precision, and the float-to-int casts by truncation toward
zero. -/

/-- Special or finite IEEE float value; the payload of `finite` is the
exact rational value of the float. -/
inductive FloatVal where
  | nan : FloatVal
  | pinf : FloatVal
  | ninf : FloatVal
  | finite (q : ℚ) : FloatVal
deriving DecidableEq

/-- Fuel-driven helper for `bitLen`: halves the argument until it reaches
zero.  The fuel only bounds the recursion; `bitLen` supplies enough. -/
def bitLenAux : Nat → Nat → Nat
  | 0, _ => 0
  | fuel + 1, m => if m = 0 then 0 else bitLenAux fuel (m / 2) + 1

/-- Number of binary digits of a natural number (0 for 0). -/
def bitLen (m : Nat) : Nat := bitLenAux m m

/-- Round a natural number to `prec` significant binary digits using
round-to-nearest, ties to even: the rounding an IEEE cast from integer to
float performs on the magnitude (no overflow occurs for 64-bit inputs). -/
def roundToBits (prec : Nat) (m : Nat) : Nat :=
  if bitLen m ≤ prec then m
  else
    let k := bitLen m - prec
    let q := m / 2 ^ k
    let r := m % 2 ^ k
    let half := 2 ^ (k - 1)
    if half < r ∨ (r = half ∧ q % 2 = 1) then (q + 1) * 2 ^ k
    else q * 2 ^ k

/-- Exact value of the C cast `(float4) ival`: round-to-nearest-even of the
integer at 24 significant bits. -/
def f32OfInt (n : Int) : ℚ :=
  (if n < 0 then -1 else 1) * (roundToBits 24 n.natAbs : ℚ)

/-- Exact value of the C cast `(float8) ival`: round-to-nearest-even of the
integer at 53 significant bits. -/
def f8OfInt (n : Int) : ℚ :=
  (if n < 0 then -1 else 1) * (roundToBits 53 n.natAbs : ℚ)

/-- Truncation toward zero of a rational: the C float-to-integer cast. -/
def ratTrunc (q : ℚ) : Int := q.num.tdiv q.den

/-- Translation of `float4_cmp_int2_internal` (c:1420): NaN compares
greater, infinities by sign; the conversion `(float4) ival` of an int16 is
exact, and the defensive lost-precision branch compares `fval < ival` with
the int16 implicitly converted to float4. -/
def float4_cmp_int2_internal (f : FloatVal) (ival : Int) : Int :=
  match f with
  | .nan => 1
  | .pinf => 1
  | .ninf => -1
  | .finite fval =>
      let ival_as_float4 := f32OfInt ival
      if ratTrunc ival_as_float4 ≠ ival then
        if fval < f32OfInt ival then -1 else 1
      else
        if fval < ival_as_float4 then -1
        else if ival_as_float4 < fval then 1
        else 0

/-- Translation of `float4_cmp_int4_internal` (c:1451): beyond the 2^24
exact-integer range of float4, a failed round-trip `(int32)(float4) ival`
means the values can never be equal; the final tie-break compares
`ival_as_float4 < ival`, where C converts `ival` to float4 again. -/
def float4_cmp_int4_internal (f : FloatVal) (ival : Int) : Int :=
  match f with
  | .nan => 1
  | .pinf => 1
  | .ninf => -1
  | .finite fval =>
      let ival_as_float4 := f32OfInt ival
      if 16777216 < |ival| ∧ ratTrunc ival_as_float4 ≠ ival then
        if fval < ival_as_float4 then -1
        else if ival_as_float4 < fval then 1
        else if ival_as_float4 < f32OfInt ival then -1 else 1
      else
        if fval < ival_as_float4 then -1
        else if ival_as_float4 < fval then 1
        else 0

/-- Translation of `float4_cmp_int8_internal` (c:1481), same structure as
the int4 version with the 64-bit round-trip `(int64)(float4) ival`. -/
def float4_cmp_int8_internal (f : FloatVal) (ival : Int) : Int :=
  match f with
  | .nan => 1
  | .pinf => 1
  | .ninf => -1
  | .finite fval =>
      let ival_as_float4 := f32OfInt ival
      if 16777216 < |ival| ∧ ratTrunc ival_as_float4 ≠ ival then
        if fval < ival_as_float4 then -1
        else if ival_as_float4 < fval then 1
        else if ival_as_float4 < f32OfInt ival then -1 else 1
      else
        if fval < ival_as_float4 then -1
        else if ival_as_float4 < fval then 1
        else 0

/-- Translation of `float8_cmp_int2_internal` (c:1507): the conversion
`(float8) ival` of an int16 is exact. -/
def float8_cmp_int2_internal (f : FloatVal) (ival : Int) : Int :=
  match f with
  | .nan => 1
  | .pinf => 1
  | .ninf => -1
  | .finite fval =>
      let ival_as_float8 := f8OfInt ival
      if fval < ival_as_float8 then -1
      else if ival_as_float8 < fval then 1
      else 0

/-- Translation of `float8_cmp_int4_internal` (c:1524). -/
def float8_cmp_int4_internal (f : FloatVal) (ival : Int) : Int :=
  match f with
  | .nan => 1
  | .pinf => 1
  | .ninf => -1
  | .finite fval =>
      let ival_as_float8 := f8OfInt ival
      if fval < ival_as_float8 then -1
      else if ival_as_float8 < fval then 1
      else 0

/-- Translation of `float8_cmp_int8_internal` (c:1541): a float with a
fractional part never equals an integer and is ordered by comparing
against `(float8) ival`; beyond 2^53 the round-trip `(int64)(float8) ival`
detects precision loss as in the float4 comparators. -/
def float8_cmp_int8_internal (f : FloatVal) (ival : Int) : Int :=
  match f with
  | .nan => 1
  | .pinf => 1
  | .ninf => -1
  | .finite fval =>
      if fval ≠ (ratTrunc fval : ℚ) then
        if fval < f8OfInt ival then -1 else 1
      else
        let ival_as_float8 := f8OfInt ival
        if 9007199254740992 < |ival| ∧ ratTrunc ival_as_float8 ≠ ival then
          if fval < ival_as_float8 then -1
          else if ival_as_float8 < fval then 1
          else if ival_as_float8 < f8OfInt ival then -1 else 1
        else
          if fval < ival_as_float8 then -1
          else if ival_as_float8 < fval then 1
          else 0

/-!  Hash consistency adapter.  `hash_any`/`hash_any_extended` are opaque
host primitives; the theorems quantify over arbitrary functions in their
place, so the proved equalities hold whatever the real hash is. -/

/-- Base-10000 digit extraction loop of `hash_int64_as_numeric_internal`
(c:2738): digits least significant first; the C array has room for 5
digits, which covers every int64 magnitude, and the fuel mirrors that. -/
def extractDigits : Nat → Nat → List Nat
  | 0, _ => []
  | fuel + 1, u => if u = 0 then [] else u % 10000 :: extractDigits fuel (u / 10000)

/-- Removal of trailing zero digits, the `while (ndigits > 0 &&
digits[ndigits - 1] == 0) ndigits--` loop (c:2754). -/
def stripTrailingZeros (ds : List Nat) : List Nat :=
  (ds.reverse.dropWhile (fun d => d = 0)).reverse

/-- Translation of `hash_int64_as_numeric_internal` (c:2712), parametrized
by the host `hash_any` (a uint32-valued hash of the digit array).  Zero
hashes to `(uint32) -1`; otherwise hash the trailing-zero-stripped
base-10000 digits of the magnitude and XOR in the weight. -/
def hash_int64_as_numeric_internal (hashAny : List Nat → Nat) (val : Int) : Nat :=
  if val = 0 then 4294967295
  else
    let uval : Nat :=
      if val < 0 then
        if val = int64Min then 9223372036854775808 else (-val).toNat
      else val.toNat
    let ds := (extractDigits 5 uval).reverse
    let weight := ds.length - 1
    Nat.xor (hashAny (stripTrailingZeros ds)) weight

/-- Translation of `hash_int64_as_numeric_extended_internal` (c:2764),
parametrized by the host `hash_any_extended` (uint64-valued, seeded).
Zero hashes to `seed - 1` in uint64 arithmetic. -/
def hash_int64_as_numeric_extended_internal (hashAnyExt : List Nat → Nat → Nat)
    (val : Int) (seed : Nat) : Nat :=
  if val = 0 then (seed + 18446744073709551615) % 18446744073709551616
  else
    let uval : Nat :=
      if val < 0 then
        if val = int64Min then 9223372036854775808 else (-val).toNat
      else val.toNat
    let ds := (extractDigits 5 uval).reverse
    let weight := ds.length - 1
    Nat.xor (hashAnyExt (stripTrailingZeros ds) seed) weight

/-- Modelled from the spec: PostgreSQL's native `hash_numeric`, which is a
host collaborator outside src/.  Per the spec (§4.4) and the algorithm
restated at c:2702-2707 it strips leading and trailing zero digits,
applies `hash_any` to the remaining digit array, and XORs in the weight
adjusted for the stripped leading digits; a value with no nonzero digit
hashes to `(uint32) -1` and special values hash to 0.  The sign does not
participate. -/
def hash_numeric_model (hashAny : List Nat → Nat) (num : PGNumeric) : Nat :=
  match num with
  | .nan => 0
  | .pinf => 0
  | .ninf => 0
  | .finite _ w digits =>
      let start := (digits.takeWhile (fun d => d = 0)).length
      if digits.length = start then 4294967295
      else
        Nat.xor (hashAny (stripTrailingZeros (digits.drop start)))
          ((w - start).emod 4294967296).toNat

/-- Modelled from the spec: PostgreSQL's native `hash_numeric_extended`,
the seeded uint64 variant of `hash_numeric` (same stripping and mixing;
zero hashes to `seed - 1` in uint64 arithmetic, specials to the seed). -/
def hash_numeric_extended_model (hashAnyExt : List Nat → Nat → Nat)
    (num : PGNumeric) (seed : Nat) : Nat :=
  match num with
  | .nan => seed
  | .pinf => seed
  | .ninf => seed
  | .finite _ w digits =>
      let start := (digits.takeWhile (fun d => d = 0)).length
      if digits.length = start then (seed + 18446744073709551615) % 18446744073709551616
      else
        Nat.xor (hashAnyExt (stripTrailingZeros (digits.drop start)) seed)
          ((w - start).emod 4294967296).toNat

/-- Modelled from the spec: the host conversion `decimal(n)` witnessed by
`int64_to_numeric`, producing the canonical Numeric of an integer: sign
from the integer, base-10000 digits of the magnitude most significant
first with trailing zero digits stripped, and weight `ndigits - 1`. -/
def numericOfInt64 (n : Int) : PGNumeric :=
  if n = 0 then .finite false 0 []
  else
    let ds := (extractDigits 5 n.natAbs).reverse
    .finite (n < 0) ((ds.length : Int) - 1) (stripTrailingZeros ds)

/-!  Arithmetic facts about the digit-list value function. -/

theorem natValFrom_eq (ds : List Nat) : ∀ a : Nat,
    natValFrom a ds = a * 10000 ^ ds.length + natVal ds := by
  induction ds with
  | nil => intro a; simp [natValFrom, natVal]
  | cons d t ih =>
      intro a
      have h1 : natValFrom a (d :: t) = natValFrom (a * 10000 + d) t := rfl
      have h2 : natVal (d :: t) = natValFrom d t := by
        simp [natVal, natValFrom]
      rw [h1, ih, h2, ih]
      simp [List.length_cons]
      ring

theorem natVal_cons (d : Nat) (t : List Nat) :
    natVal (d :: t) = d * 10000 ^ t.length + natVal t := by
  have : natVal (d :: t) = natValFrom d t := by simp [natVal, natValFrom]
  rw [this, natValFrom_eq]

theorem natVal_append (xs ys : List Nat) :
    natVal (xs ++ ys) = natVal xs * 10000 ^ ys.length + natVal ys := by
  induction xs with
  | nil => simp [natVal, natValFrom]
  | cons d t ih =>
      rw [List.cons_append, natVal_cons, ih, natVal_cons]
      simp [List.length_append]
      ring

theorem natVal_replicate_zero (k : Nat) : natVal (List.replicate k 0) = 0 := by
  induction k with
  | zero => rfl
  | succ n ih => rw [List.replicate_succ, natVal_cons, ih]; simp

theorem natVal_padTo (ds : List Nat) (L : Nat) :
    natVal (padTo ds L) = natVal ds * 10000 ^ (L - ds.length) := by
  unfold padTo
  rw [natVal_append, natVal_replicate_zero, List.length_replicate]
  omega

theorem padTo_length (ds : List Nat) (L : Nat) (h : ds.length ≤ L) :
    (padTo ds L).length = L := by
  unfold padTo
  simp [List.length_append, List.length_replicate]
  omega

theorem natVal_lt (ds : List Nat) (h : ∀ d ∈ ds, d < 10000) :
    natVal ds < 10000 ^ ds.length := by
  induction ds with
  | nil => simp [natVal, natValFrom]
  | cons d t ih =>
      rw [natVal_cons]
      have hd : d < 10000 := h d (List.mem_cons_self d t)
      have ht : natVal t < 10000 ^ t.length :=
        ih (fun x hx => h x (List.mem_cons_of_mem d hx))
      have : (d + 1) * 10000 ^ t.length ≤ 10000 * 10000 ^ t.length :=
        Nat.mul_le_mul_right _ hd
      calc d * 10000 ^ t.length + natVal t
          < d * 10000 ^ t.length + 10000 ^ t.length := by omega
        _ = (d + 1) * 10000 ^ t.length := by ring
        _ ≤ 10000 * 10000 ^ t.length := this
        _ = 10000 ^ (d :: t).length := by rw [List.length_cons]; ring

theorem natVal_head_ge (d : Nat) (t : List Nat) (hd : d ≠ 0) :
    10000 ^ t.length ≤ natVal (d :: t) := by
  rw [natVal_cons]
  have h1 : 1 * 10000 ^ t.length ≤ d * 10000 ^ t.length :=
    Nat.mul_le_mul_right _ (by omega)
  omega

theorem natVal_pos_of_getLast (ds : List Nat) (h : ds.getLast? ≠ some 0)
    (hne : ds ≠ []) : 0 < natVal ds := by
  induction ds with
  | nil => exact absurd rfl hne
  | cons d t ih =>
      rw [natVal_cons]
      cases t with
      | nil =>
          simp [natVal, natValFrom]
          have : d ≠ 0 := by simpa using h
          omega
      | cons b s =>
          have h2 : (b :: s).getLast? ≠ some 0 := by
            rwa [List.getLast?_cons_cons] at h
          have := ih h2 (by simp)
          omega

theorem le_mul_pow_add (a c : Int) (k : Nat) (ha : 0 ≤ a) (hc : 0 ≤ c) :
    a ≤ a * 10000 ^ k + c := by
  have hp : (0 : Int) < 10000 ^ k := pow_pos (by norm_num) k
  have h1 : a * 1 ≤ a * 10000 ^ k := by
    apply mul_le_mul_of_nonneg_left _ ha
    omega
  omega

theorem natVal_cast_nonneg (ds : List Nat) : (0 : Int) ≤ (natVal ds : Int) :=
  Int.natCast_nonneg _

theorem accLoop_eq (ds : List Nat) : ∀ v : Int, 0 ≤ v → v ≤ int64Max →
    accLoop ds v =
      if v * 10000 ^ ds.length + (natVal ds : Int) ≤ int64Max
      then some (v * 10000 ^ ds.length + (natVal ds : Int)) else none := by
  induction ds with
  | nil =>
      intro v hv0 hv1
      have h : v * 10000 ^ ([] : List Nat).length + ((natVal [] : Nat) : Int) = v := by
        simp [natVal, natValFrom]
      rw [show accLoop [] v = some v from rfl, h, if_pos hv1]
  | cons d t ih =>
      intro v hv0 hv1
      have hT : v * 10000 ^ (d :: t).length + (natVal (d :: t) : Int) =
          (v * 10000 + (d : Int)) * 10000 ^ t.length + (natVal t : Int) := by
        rw [natVal_cons, List.length_cons]
        push_cast
        ring
      have hdiv : int64Max / 10000 = 922337203685477 := by decide
      by_cases hc1 : int64Max / 10000 < v
      · have hbig : int64Max < v * 10000 := by
          rw [hdiv] at hc1
          unfold int64Max at *
          omega
        have hge : v * 10000 ≤ (v * 10000 + (d : Int)) * 10000 ^ t.length + (natVal t : Int) := by
          have := le_mul_pow_add (v * 10000 + (d : Int)) (natVal t : Int) t.length
            (by positivity) (natVal_cast_nonneg t)
          omega
        rw [show accLoop (d :: t) v = none by simp [accLoop, hc1]]
        rw [if_neg (by omega)]
      · by_cases hc2 : int64Max - v * 10000 < (d : Int)
        · have hge : v * 10000 + (d : Int) ≤
              (v * 10000 + (d : Int)) * 10000 ^ t.length + (natVal t : Int) :=
            le_mul_pow_add _ _ _ (by positivity) (natVal_cast_nonneg t)
          rw [show accLoop (d :: t) v = none by simp [accLoop, hc1, hc2]]
          rw [if_neg (by omega)]
        · have hstep : accLoop (d :: t) v = accLoop t (v * 10000 + (d : Int)) := by
            simp [accLoop, hc1, hc2]
          rw [hstep, ih (v * 10000 + (d : Int)) (by positivity) (by omega), hT]

theorem accLoopNeg_eq (ds : List Nat) : ∀ v : Int, 0 ≤ v → v ≤ int64Max →
    accLoopNeg ds v =
      if v * 10000 ^ ds.length + (natVal ds : Int) ≤ int64Max
      then some (-(v * 10000 ^ ds.length + (natVal ds : Int)))
      else if v * 10000 ^ ds.length + (natVal ds : Int) = int64Max + 1
      then some int64Min else none := by
  induction ds with
  | nil =>
      intro v hv0 hv1
      have h : v * 10000 ^ ([] : List Nat).length + ((natVal [] : Nat) : Int) = v := by
        simp [natVal, natValFrom]
      rw [show accLoopNeg [] v = some (-v) from rfl, h, if_pos hv1]
  | cons d t ih =>
      intro v hv0 hv1
      have hT : v * 10000 ^ (d :: t).length + (natVal (d :: t) : Int) =
          (v * 10000 + (d : Int)) * 10000 ^ t.length + (natVal t : Int) := by
        rw [natVal_cons, List.length_cons]
        push_cast
        ring
      have hdiv : int64Max / 10000 = 922337203685477 := by decide
      have hp : (0 : Int) < 10000 ^ t.length := pow_pos (by norm_num) t.length
      by_cases hc1 : int64Max / 10000 < v
      · have hbig : int64Max < v * 10000 := by
          rw [hdiv] at hc1
          unfold int64Max at *
          omega
        have hge : v * 10000 ≤ (v * 10000 + (d : Int)) * 10000 ^ t.length + (natVal t : Int) := by
          have := le_mul_pow_add (v * 10000 + (d : Int)) (natVal t : Int) t.length
            (by positivity) (natVal_cast_nonneg t)
          omega
        have hne : (v * 10000 + (d : Int)) * 10000 ^ t.length + (natVal t : Int) ≠
            int64Max + 1 := by
          intro heq
          -- the total equals 2^63 while v * 10000 already exceeds int64Max:
          -- forces d = 0, t = [] and v * 10000 = 2^63, impossible mod 10000
          have hd0 : (0 : Int) ≤ (d : Int) := Int.natCast_nonneg _
          have hnv : (0 : Int) ≤ (natVal t : Int) := natVal_cast_nonneg t
          have hA : v * 10000 + (d : Int) ≤ (v * 10000 + (d : Int)) * 10000 ^ t.length :=
            by nlinarith
          by_cases ht : t.length = 0
          · rw [ht] at heq
            simp at heq
            have : natVal t = 0 := by
              have : t = [] := List.length_eq_zero.mp ht
              simp [this, natVal, natValFrom]
            rw [this] at heq
            unfold int64Max at *
            omega
          · have h10 : (10000 : Int) ≤ 10000 ^ t.length := by
              calc (10000 : Int) = 10000 ^ 1 := by ring
                _ ≤ 10000 ^ t.length := by
                    apply pow_le_pow_right (by norm_num)
                    omega
            have : (v * 10000 + (d : Int)) * 10000 ≤
                (v * 10000 + (d : Int)) * 10000 ^ t.length := by
              apply mul_le_mul_of_nonneg_left h10 (by omega)
            unfold int64Max at *
            nlinarith
        rw [show accLoopNeg (d :: t) v = none by simp [accLoopNeg, hc1]]
        rw [hT, if_neg (by omega), if_neg hne]
      · by_cases hc2 : int64Max - v * 10000 < (d : Int)
        · have hge : v * 10000 + (d : Int) ≤
              (v * 10000 + (d : Int)) * 10000 ^ t.length + (natVal t : Int) :=
            le_mul_pow_add _ _ _ (by positivity) (natVal_cast_nonneg t)
          by_cases hsp : v * 10000 = int64Max - (d : Int) + 1 ∧ t = []
          · obtain ⟨hv10, ht⟩ := hsp
            subst ht
            have hTeq : (v * 10000 + (d : Int)) * 10000 ^ ([] : List Nat).length +
                (natVal [] : Int) = int64Max + 1 := by
              simp [natVal, natValFrom]
              omega
            have hstep : accLoopNeg [d] v = some int64Min := by
              simp only [accLoopNeg]
              rw [if_neg hc1, if_pos hc2, if_pos ⟨hv10, by trivial⟩]
            rw [hstep, hT, hTeq, if_neg (by omega), if_pos rfl]
          · have hne : (v * 10000 + (d : Int)) * 10000 ^ t.length + (natVal t : Int) ≠
                int64Max + 1 := by
              intro heq
              by_cases ht : t = []
              · subst ht
                simp [natVal, natValFrom] at heq
                exact hsp ⟨by omega, rfl⟩
              · have hlen : 1 ≤ t.length := by
                  cases t with
                  | nil => exact absurd rfl ht
                  | cons x s => simp
                have h10 : (10000 : Int) ≤ 10000 ^ t.length := by
                  calc (10000 : Int) = 10000 ^ 1 := by ring
                    _ ≤ 10000 ^ t.length := by
                        apply pow_le_pow_right (by norm_num)
                        omega
                have hA : (v * 10000 + (d : Int)) * 10000 ≤
                    (v * 10000 + (d : Int)) * 10000 ^ t.length := by
                  apply mul_le_mul_of_nonneg_left h10 (by omega)
                have hnv : (0 : Int) ≤ (natVal t : Int) := natVal_cast_nonneg t
                unfold int64Max at *
                nlinarith
            rw [show accLoopNeg (d :: t) v = none by simp [accLoopNeg, hc1, hc2, hsp]]
            rw [hT, if_neg (by omega), if_neg hne]
        · have hstep : accLoopNeg (d :: t) v = accLoopNeg t (v * 10000 + (d : Int)) := by
            simp [accLoopNeg, hc1, hc2]
          rw [hstep, ih (v * 10000 + (d : Int)) (by positivity) (by omega), hT]

/-!  Characterizations of the extraction functions. -/

theorem to_int64_spec_integral (neg : Bool) (w : Int) (digits : List Nat)
    (hne : digits ≠ []) (hint : (digits.length : Int) ≤ w + 1) (hw4 : w ≤ 4) :
    num2int_numeric_to_int64 (.finite neg w digits) =
      (if (natVal (padTo digits (w + 1).toNat) : Int) ≤ int64Max
       then some (if neg = true then -(natVal (padTo digits (w + 1).toNat) : Int)
                  else (natVal (padTo digits (w + 1).toNat) : Int))
       else if neg = true ∧ (natVal (padTo digits (w + 1).toNat) : Int) = int64Max + 1
       then some int64Min else none) := by
  have hlen : digits.length ≠ 0 := fun h => hne (List.length_eq_zero.mp h)
  have h1 : ¬ (w + 1 < (digits.length : Int)) := by omega
  have h2 : ¬ (4 < w) := by omega
  have hunf : num2int_numeric_to_int64 (.finite neg w digits) =
      (if neg then accLoopNeg (padTo digits (w + 1).toNat) 0
       else accLoop (padTo digits (w + 1).toNat) 0) := by
    simp only [num2int_numeric_to_int64]
    rw [if_neg hlen, if_neg h1, if_neg h2]
  rw [hunf]
  have hMax : (0 : Int) ≤ 0 ∧ (0 : Int) ≤ int64Max := by unfold int64Max; omega
  cases neg with
  | false =>
      rw [if_neg (by simp), accLoop_eq _ 0 hMax.1 hMax.2]
      simp only [zero_mul, zero_add]
      by_cases h : (natVal (padTo digits (w + 1).toNat) : Int) ≤ int64Max
      · rw [if_pos h, if_pos h]
        simp
      · rw [if_neg h, if_neg h, if_neg (by simp)]
  | true =>
      rw [if_pos (by simp), accLoopNeg_eq _ 0 hMax.1 hMax.2]
      simp only [zero_mul, zero_add]
      by_cases h : (natVal (padTo digits (w + 1).toNat) : Int) ≤ int64Max
      · rw [if_pos h, if_pos h]
        simp
      · rw [if_neg h, if_neg h]
        by_cases h2 : (natVal (padTo digits (w + 1).toNat) : Int) = int64Max + 1
        · rw [if_pos h2, if_pos ⟨by trivial, h2⟩]
        · rw [if_neg h2, if_neg (by simp [h2])]

theorem to_int64_none_of_frac (neg : Bool) (w : Int) (digits : List Nat)
    (hne : digits ≠ []) (hfrac : w + 1 < (digits.length : Int)) :
    num2int_numeric_to_int64 (.finite neg w digits) = none := by
  have hlen : digits.length ≠ 0 := fun h => hne (List.length_eq_zero.mp h)
  simp only [num2int_numeric_to_int64]
  rw [if_neg hlen, if_pos hfrac]

theorem to_int64_none_of_bigweight (neg : Bool) (w : Int) (digits : List Nat)
    (hne : digits ≠ []) (hint : (digits.length : Int) ≤ w + 1) (hw4 : 4 < w) :
    num2int_numeric_to_int64 (.finite neg w digits) = none := by
  have hlen : digits.length ≠ 0 := fun h => hne (List.length_eq_zero.mp h)
  simp only [num2int_numeric_to_int64]
  rw [if_neg hlen, if_neg (by omega), if_pos hw4]

theorem floor_spec_frac (neg : Bool) (w : Int) (digits : List Nat)
    (hw4 : w ≤ 4) (hw0 : 0 < w + 1) (hfrac : w + 1 < (digits.length : Int)) :
    num2int_numeric_floor_to_int64 (.finite neg w digits) =
      (if (natVal (digits.take (w + 1).toNat) : Int) ≤ int64Max
       then some (if neg = true then -(natVal (digits.take (w + 1).toNat) : Int) - 1
                  else (natVal (digits.take (w + 1).toNat) : Int))
       else none) := by
  have hlen : digits.length ≠ 0 := by omega
  have hunf : num2int_numeric_floor_to_int64 (.finite neg w digits) =
      (match accLoop (digits.take (w + 1).toNat) 0 with
       | none => none
       | some floor_val => some (if neg then -floor_val - 1 else floor_val)) := by
    simp only [num2int_numeric_floor_to_int64]
    rw [if_neg hlen, if_neg (by omega), if_neg (by omega), if_neg (by omega)]
  rw [hunf, accLoop_eq _ 0 (by omega) (by unfold int64Max; omega)]
  simp only [zero_mul, zero_add]
  by_cases h : (natVal (digits.take (w + 1).toNat) : Int) ≤ int64Max
  · rw [if_pos h, if_pos h]
  · rw [if_neg h, if_neg h]

theorem floor_spec_pure_frac (neg : Bool) (w : Int) (digits : List Nat)
    (hne : digits ≠ []) (hw0 : w + 1 ≤ 0) :
    num2int_numeric_floor_to_int64 (.finite neg w digits) =
      some (if neg = true then -1 else 0) := by
  have hlen : digits.length ≠ 0 := fun h => hne (List.length_eq_zero.mp h)
  simp only [num2int_numeric_floor_to_int64]
  rw [if_neg hlen, if_neg (by omega), if_pos hw0]

/-!  Small list facts used for the well-formedness transfers. -/

theorem getLast?_cons_ne_nil (d : Nat) (t : List Nat) (ht : t ≠ []) :
    (d :: t).getLast? = t.getLast? := by
  cases t with
  | nil => exact absurd rfl ht
  | cons b s => exact List.getLast?_cons_cons

theorem getLast?_drop (ds : List Nat) : ∀ n : Nat, n < ds.length →
    (ds.drop n).getLast? = ds.getLast? := by
  induction ds with
  | nil => intro n hn; simp at hn
  | cons d t ih =>
      intro n hn
      cases n with
      | zero => rfl
      | succ m =>
          have hm : m < t.length := by
            simp [List.length_cons] at hn
            omega
          have ht : t ≠ [] := by
            intro h
            rw [h] at hm
            simp at hm
          rw [List.drop_succ_cons, ih m hm, getLast?_cons_ne_nil d t ht]

theorem head?_take (ds : List Nat) (k : Nat) (hk : k ≠ 0) :
    (ds.take k).head? = ds.head? := by
  cases ds with
  | nil => simp
  | cons d t =>
      cases k with
      | zero => exact absurd rfl hk
      | succ m => simp [List.take_succ_cons]

theorem head?_padTo (ds : List Nat) (L : Nat) (hne : ds ≠ []) :
    (padTo ds L).head? = ds.head? := by
  cases ds with
  | nil => exact absurd rfl hne
  | cons d t => simp [padTo]

theorem natVal_pos_of_head (ds : List Nat) (hne : ds ≠ [])
    (hh : ds.head? ≠ some 0) : 0 < natVal ds := by
  cases ds with
  | nil => exact absurd rfl hne
  | cons d t =>
      have hd : d ≠ 0 := by simpa using hh
      have := natVal_head_ge d t hd
      have hp : 0 < 10000 ^ t.length := Nat.pos_pow_of_pos _ (by norm_num)
      omega

theorem natVal_ge_pow_of_head (ds : List Nat) (hne : ds ≠ [])
    (hh : ds.head? ≠ some 0) : 10000 ^ (ds.length - 1) ≤ natVal ds := by
  cases ds with
  | nil => exact absurd rfl hne
  | cons d t =>
      have hd : d ≠ 0 := by simpa using hh
      simpa using natVal_head_ge d t hd

/-!  Rational magnitude of a finite Numeric and its key bounds. -/

/-- Magnitude part of `PGNumeric.valQ`: the value of the digit list at the
given weight, without the sign. -/
def magQ (w : Int) (ds : List Nat) : ℚ :=
  (natVal ds : ℚ) * (10000 : ℚ) ^ (w + 1 - (ds.length : Int))

theorem valQ_eq_sign_mul_magQ (neg : Bool) (w : Int) (ds : List Nat) :
    PGNumeric.valQ (.finite neg w ds) = (if neg = true then -1 else 1) * magQ w ds := by
  unfold PGNumeric.valQ magQ
  cases neg <;> simp [mul_assoc]

theorem magQ_nonneg (w : Int) (ds : List Nat) : 0 ≤ magQ w ds := by
  unfold magQ
  have h1 : (0 : ℚ) ≤ (natVal ds : ℚ) := Nat.cast_nonneg _
  have h2 : (0 : ℚ) < (10000 : ℚ) ^ (w + 1 - (ds.length : Int)) :=
    zpow_pos (by norm_num) _
  positivity

theorem magQ_pos (w : Int) (ds : List Nat) (hne : ds ≠ [])
    (hh : ds.head? ≠ some 0) : 0 < magQ w ds := by
  unfold magQ
  have h1 : (0 : ℚ) < (natVal ds : ℚ) := by
    exact_mod_cast natVal_pos_of_head ds hne hh
  have h2 : (0 : ℚ) < (10000 : ℚ) ^ (w + 1 - (ds.length : Int)) :=
    zpow_pos (by norm_num) _
  positivity

theorem magQ_integral (w : Int) (ds : List Nat)
    (hne : ds ≠ []) (hint : (ds.length : Int) ≤ w + 1) :
    magQ w ds = ((natVal (padTo ds (w + 1).toNat) : Nat) : ℚ) := by
  have hlen1 : 1 ≤ ds.length := by
    cases ds with
    | nil => exact absurd rfl hne
    | cons d t => simp
  have hw0 : 0 ≤ w + 1 := by omega
  have hL : ((w + 1).toNat : Int) = w + 1 := Int.toNat_of_nonneg hw0
  have hle : ds.length ≤ (w + 1).toNat := by omega
  unfold magQ
  rw [natVal_padTo]
  have hexp : w + 1 - (ds.length : Int) = (((w + 1).toNat - ds.length : Nat) : Int) := by
    have := Int.natCast_sub hle
    omega
  rw [hexp, zpow_natCast]
  push_cast
  ring

theorem magQ_frac_bounds (w : Int) (ds : List Nat) (hw0 : 0 ≤ w)
    (hfrac : w + 1 < (ds.length : Int)) (hd : ∀ d ∈ ds, d < 10000)
    (hlast : ds.getLast? ≠ some 0) :
    ((natVal (ds.take (w + 1).toNat) : Nat) : ℚ) < magQ w ds ∧
      magQ w ds < ((natVal (ds.take (w + 1).toNat) : Nat) : ℚ) + 1 := by
  have hw1 : 0 ≤ w + 1 := by omega
  have hL : ((w + 1).toNat : Int) = w + 1 := Int.toNat_of_nonneg hw1
  have hLlt : (w + 1).toNat < ds.length := by omega
  have hsplit : ds = ds.take (w + 1).toNat ++ ds.drop (w + 1).toNat :=
    (List.take_append_drop _ ds).symm
  have hdroplen : (ds.drop (w + 1).toNat).length = ds.length - (w + 1).toNat :=
    List.length_drop _ _
  have hdropne : ds.drop (w + 1).toNat ≠ [] := by
    intro h
    have := congrArg List.length h
    rw [hdroplen] at this
    simp at this
    omega
  have hdlast : (ds.drop (w + 1).toNat).getLast? ≠ some 0 := by
    rw [getLast?_drop ds _ hLlt]
    exact hlast
  have hFpos : 0 < natVal (ds.drop (w + 1).toNat) :=
    natVal_pos_of_getLast _ hdlast hdropne
  have hFlt : natVal (ds.drop (w + 1).toNat) < 10000 ^ (ds.drop (w + 1).toNat).length :=
    natVal_lt _ (fun d hdm => hd d (List.drop_subset _ ds hdm))
  have hsum : natVal ds = natVal (ds.take (w + 1).toNat) *
      10000 ^ (ds.drop (w + 1).toNat).length + natVal (ds.drop (w + 1).toNat) := by
    conv_lhs => rw [hsplit]
    exact natVal_append _ _
  -- the exponent is minus the number of fractional digits
  have hexp : w + 1 - (ds.length : Int) = -(((ds.drop (w + 1).toNat).length : Nat) : Int) := by
    rw [hdroplen]
    have := Int.natCast_sub (le_of_lt hLlt)
    omega
  set m := (ds.drop (w + 1).toNat).length with hm
  set I := natVal (ds.take (w + 1).toNat) with hI
  set F := natVal (ds.drop (w + 1).toNat) with hF
  have hB : (0 : ℚ) < (10000 : ℚ) ^ m := by positivity
  have hmag : magQ w ds = ((I : ℚ) * 10000 ^ m + (F : ℚ)) / (10000 : ℚ) ^ m := by
    unfold magQ
    rw [hexp, hsum]
    rw [zpow_neg, zpow_natCast]
    push_cast
    field_simp
  constructor
  · rw [hmag, lt_div_iff hB]
    have : (0 : ℚ) < (F : ℚ) := by exact_mod_cast hFpos
    linarith
  · rw [hmag, div_lt_iff hB]
    have : (F : ℚ) < (10000 : ℚ) ^ m := by exact_mod_cast hFlt
    ring_nf
    ring_nf at this
    linarith

theorem magQ_pure_frac (w : Int) (ds : List Nat) (hw : w + 1 ≤ 0)
    (hne : ds ≠ []) (hd : ∀ d ∈ ds, d < 10000) (hh : ds.head? ≠ some 0) :
    0 < magQ w ds ∧ magQ w ds < 1 := by
  refine ⟨magQ_pos w ds hne hh, ?_⟩
  have hvlt : natVal ds < 10000 ^ ds.length := natVal_lt ds hd
  have hvlt2 : ((natVal ds : Nat) : ℚ) < (10000 : ℚ) ^ (ds.length : Int) := by
    rw [zpow_natCast]
    exact_mod_cast hvlt
  have hzpos : (0 : ℚ) < (10000 : ℚ) ^ (w + 1 - (ds.length : Int)) :=
    zpow_pos (by norm_num) _
  have hcomb : magQ w ds < (10000 : ℚ) ^ (ds.length : Int) *
      (10000 : ℚ) ^ (w + 1 - (ds.length : Int)) := by
    unfold magQ
    exact mul_lt_mul_of_pos_right hvlt2 hzpos
  have hadd : (10000 : ℚ) ^ (ds.length : Int) * (10000 : ℚ) ^ (w + 1 - (ds.length : Int)) =
      (10000 : ℚ) ^ (w + 1) := by
    rw [← zpow_add₀ (by norm_num : (10000 : ℚ) ≠ 0)]
    ring_nf
  have hle1 : (10000 : ℚ) ^ (w + 1) ≤ 1 := by
    apply zpow_le_one_of_nonpos (by norm_num) hw
  calc magQ w ds < (10000 : ℚ) ^ (ds.length : Int) *
        (10000 : ℚ) ^ (w + 1 - (ds.length : Int)) := hcomb
    _ = (10000 : ℚ) ^ (w + 1) := hadd
    _ ≤ 1 := hle1

theorem signCmpCast (x i : Int) :
    (if (x : ℚ) < (i : ℚ) then (-1 : Int) else if (x : ℚ) = (i : ℚ) then 0 else 1) =
      (if x < i then -1 else if x = i then 0 else 1) := by
  by_cases h1 : x < i
  · rw [if_pos (by exact_mod_cast h1), if_pos h1]
  · by_cases h2 : x = i
    · rw [if_neg (by exact_mod_cast h1), if_pos (by exact_mod_cast h2), if_neg h1, if_pos h2]
    · rw [if_neg (by exact_mod_cast h1), if_neg (by exact_mod_cast h2), if_neg h1, if_neg h2]

theorem cmp_diff_sign_pos (w : Int) (digits : List Nat)
    (hlen : digits.length ≠ 0) (i : Int) (hi : i ≤ 0) :
    numeric_cmp_int64_direct (.finite false w digits) i = 1 := by
  have hns : num2int_numeric_sign (.finite false w digits) = 1 := by
    simp [num2int_numeric_sign, hlen]
  simp only [numeric_cmp_int64_direct]
  rw [hns, if_neg (show ¬ (0 : Int) < i by omega)]
  by_cases hi0 : i < 0
  · rw [if_pos hi0]
    norm_num
  · rw [if_neg hi0]
    norm_num

theorem cmp_diff_sign_neg (w : Int) (digits : List Nat)
    (hlen : digits.length ≠ 0) (i : Int) (hi : 0 ≤ i) :
    numeric_cmp_int64_direct (.finite true w digits) i = -1 := by
  have hns : num2int_numeric_sign (.finite true w digits) = -1 := by
    simp [num2int_numeric_sign, hlen]
  simp only [numeric_cmp_int64_direct]
  rw [hns]
  by_cases hi0 : 0 < i
  · rw [if_pos hi0]
    norm_num
  · rw [if_neg hi0, if_neg (show ¬ i < 0 by omega)]
    norm_num

theorem cmp_pos_eval (w : Int) (digits : List Nat)
    (hlen : digits.length ≠ 0) (i : Int) (hi : 0 < i) :
    numeric_cmp_int64_direct (.finite false w digits) i =
      (match num2int_numeric_to_int64 (.finite false w digits) with
       | some m => if m < i then -1 else if i < m then 1 else 0
       | none =>
           if num2int_numeric_is_integral (.finite false w digits) then 1
           else if 4 < w then 1
           else if w + 1 ≤ 0 then (if (0 : Int) < i then (-1 : Int) else 1)
           else match accLoop (digits.take (w + 1).toNat) 0 with
                | none => 1
                | some fv => if fv < i then -1 else 1) := by
  have hns : num2int_numeric_sign (.finite false w digits) = 1 := by
    simp [num2int_numeric_sign, hlen]
  simp only [numeric_cmp_int64_direct]
  rw [hns, if_pos hi, if_neg (show ¬ ((1 : Int) ≠ 1) by omega),
    if_neg (show ¬ ((1 : Int) = 0) by omega)]
  norm_num

theorem cmp_neg_eval (w : Int) (digits : List Nat)
    (hlen : digits.length ≠ 0) (i : Int) (hi : i < 0) :
    numeric_cmp_int64_direct (.finite true w digits) i =
      (match num2int_numeric_to_int64 (.finite true w digits) with
       | some m => if m < i then -1 else if i < m then 1 else 0
       | none =>
           if num2int_numeric_is_integral (.finite true w digits) then -1
           else if 4 < w then -1
           else if w + 1 ≤ 0 then (if (-1 : Int) < i then (-1 : Int) else 1)
           else match accLoop (digits.take (w + 1).toNat) 0 with
                | none => -1
                | some fv => if -fv - 1 < i then -1 else 1) := by
  have hns : num2int_numeric_sign (.finite true w digits) = -1 := by
    simp [num2int_numeric_sign, hlen]
  simp only [numeric_cmp_int64_direct]
  rw [hns, if_neg (show ¬ (0 : Int) < i by omega), if_pos hi,
    if_neg (show ¬ ((-1 : Int) ≠ -1) by omega),
    if_neg (show ¬ ((-1 : Int) = 0) by omega)]
  norm_num

set_option maxHeartbeats 1000000 in
theorem numeric_cmp_int64_direct_exact
    (neg : Bool) (w : Int) (digits : List Nat) (hWF : NumericWF digits)
    (i : Int) (hlo : int64Min ≤ i) (hhi : i ≤ int64Max) :
    numeric_cmp_int64_direct (.finite neg w digits) i =
      (if PGNumeric.valQ (.finite neg w digits) < (i : ℚ) then -1
       else if PGNumeric.valQ (.finite neg w digits) = (i : ℚ) then 0 else 1) := by
  obtain ⟨hdig, hhead, hlast⟩ := hWF
  by_cases hnil : digits = []
  · subst hnil
    have hval : PGNumeric.valQ (.finite neg w []) = 0 := by
      simp [PGNumeric.valQ, natVal, natValFrom]
    have hns : num2int_numeric_sign (.finite neg w []) = 0 := by
      simp [num2int_numeric_sign]
    rw [hval]
    rcases lt_trichotomy i 0 with hi | hi | hi
    · simp only [numeric_cmp_int64_direct]
      rw [hns, if_neg (show ¬ (0 : Int) < i by omega), if_pos hi,
        if_pos (show (0 : Int) ≠ -1 by omega),
        if_neg (show ¬ (0 : Int) < -1 by omega),
        if_neg (show ¬ (0 : ℚ) < (i : ℚ) by exact_mod_cast not_lt.mpr (le_of_lt hi)),
        if_neg (show ¬ (0 : ℚ) = (i : ℚ) by exact_mod_cast (by omega : ¬ (0 : Int) = i))]
    · subst hi
      simp only [numeric_cmp_int64_direct]
      rw [hns, if_neg (show ¬ (0 : Int) < 0 by omega), if_neg (show ¬ (0 : Int) < 0 by omega),
        if_neg (show ¬ ((0 : Int) ≠ 0) by omega), if_pos rfl,
        if_neg (show ¬ (0 : ℚ) < ((0 : Int) : ℚ) by norm_num),
        if_pos (show (0 : ℚ) = ((0 : Int) : ℚ) by norm_num)]
    · simp only [numeric_cmp_int64_direct]
      rw [hns, if_pos hi, if_pos (show (0 : Int) ≠ 1 by omega),
        if_pos (show (0 : Int) < 1 by omega),
        if_pos (show (0 : ℚ) < (i : ℚ) by exact_mod_cast hi)]
  · have hlen : digits.length ≠ 0 := fun h => hnil (List.length_eq_zero.mp h)
    have hMrel : int64Min = -(int64Max + 1) := by unfold int64Min int64Max; norm_num
    cases neg with
    | false =>
        have hvq : PGNumeric.valQ (.finite false w digits) = magQ w digits := by
          rw [valQ_eq_sign_mul_magQ]; simp
        have hmpos : 0 < magQ w digits := magQ_pos _ _ hnil hhead
        rw [hvq]
        by_cases hi : 0 < i
        · rw [cmp_pos_eval w digits hlen i hi]
          by_cases hint : (digits.length : Int) ≤ w + 1
          · -- integral value
            have hmint : magQ w digits = ((natVal (padTo digits (w + 1).toNat) : Nat) : ℚ) :=
              magQ_integral w digits hnil hint
            by_cases hw4 : w ≤ 4
            · rw [to_int64_spec_integral false w digits hnil hint hw4]
              have hcast : ((natVal (padTo digits (w + 1).toNat) : Nat) : ℚ) =
                  (((natVal (padTo digits (w + 1).toNat) : Int)) : ℚ) := by push_cast; ring
              by_cases hle : (natVal (padTo digits (w + 1).toNat) : Int) ≤ int64Max
              · rw [if_pos hle]
                norm_num
                rw [hmint, hcast, signCmpCast]
                split_ifs <;> omega
              · rw [if_neg hle, if_neg (show ¬ ((false = true) ∧
                    (natVal (padTo digits (w + 1).toNat) : Int) = int64Max + 1) by simp)]
                have hisint : num2int_numeric_is_integral (.finite false w digits) = true := by
                  simp only [num2int_numeric_is_integral]
                  rw [if_neg hlen, if_pos hint]
                norm_num [hisint]
                have hleL : ¬ (natVal (padTo digits (w + 1).toNat) : Int) ≤
                    (9223372036854775807 : Int) := hle
                have h3 : i < (natVal (padTo digits (w + 1).toNat) : Int) := by omega
                have h4 : (i : ℚ) < ((natVal (padTo digits (w + 1).toNat) : Nat) : ℚ) := by
                  rw [hcast]
                  exact_mod_cast h3
                rw [hmint, if_neg (by linarith), if_neg (by linarith)]
            · rw [to_int64_none_of_bigweight false w digits hnil hint (by omega)]
              have hisint : num2int_numeric_is_integral (.finite false w digits) = true := by
                simp only [num2int_numeric_is_integral]
                rw [if_neg hlen, if_pos hint]
              norm_num [hisint]
              have hLlen : (padTo digits (w + 1).toNat).length = (w + 1).toNat :=
                padTo_length _ _ (by omega)
              have hpadne : padTo digits (w + 1).toNat ≠ [] := by
                intro h
                rw [h] at hLlen
                simp at hLlen
                omega
              have hpadh : (padTo digits (w + 1).toNat).head? ≠ some 0 := by
                rw [head?_padTo _ _ hnil]; exact hhead
              have h1 : 10000 ^ ((padTo digits (w + 1).toNat).length - 1) ≤
                  natVal (padTo digits (w + 1).toNat) :=
                natVal_ge_pow_of_head _ hpadne hpadh
              have h2 : (10000 : Nat) ^ 5 ≤ 10000 ^ ((padTo digits (w + 1).toNat).length - 1) :=
                Nat.pow_le_pow_right (by norm_num) (by rw [hLlen]; omega)
              have h4 : (100000000000000000000 : Nat) ≤ natVal (padTo digits (w + 1).toNat) := by
                calc (100000000000000000000 : Nat) = 10000 ^ 5 := by norm_num
                  _ ≤ 10000 ^ ((padTo digits (w + 1).toNat).length - 1) := h2
                  _ ≤ natVal (padTo digits (w + 1).toNat) := h1
              have hhiL : i ≤ (9223372036854775807 : Int) := hhi
              have h3 : i < (natVal (padTo digits (w + 1).toNat) : Int) := by omega
              have h5 : (i : ℚ) < ((natVal (padTo digits (w + 1).toNat) : Nat) : ℚ) := by
                exact_mod_cast h3
              rw [hmint, if_neg (by linarith), if_neg (by linarith)]
          · -- fractional value
            rw [to_int64_none_of_frac false w digits hnil (by omega)]
            have hisint : num2int_numeric_is_integral (.finite false w digits) = false := by
              simp only [num2int_numeric_is_integral]
              rw [if_neg hlen, if_neg hint]
            by_cases hw4 : 4 < w
            · -- huge fractional value: integral part alone already exceeds int64
              norm_num [hisint]
              rw [if_pos hw4]
              have hbounds := magQ_frac_bounds w digits (by omega) (by omega) hdig hlast
              have hLl : (digits.take (w + 1).toNat).length = (w + 1).toNat := by
                rw [List.length_take]
                omega
              have htkne : digits.take (w + 1).toNat ≠ [] := by
                intro h
                rw [h] at hLl
                simp at hLl
                omega
              have htkh : (digits.take (w + 1).toNat).head? ≠ some 0 := by
                rw [head?_take _ _ (by omega : (w + 1).toNat ≠ 0)]
                exact hhead
              have h1 : 10000 ^ ((digits.take (w + 1).toNat).length - 1) ≤
                  natVal (digits.take (w + 1).toNat) :=
                natVal_ge_pow_of_head _ htkne htkh
              have h2 : (10000 : Nat) ^ 5 ≤ 10000 ^ ((digits.take (w + 1).toNat).length - 1) :=
                Nat.pow_le_pow_right (by norm_num) (by rw [hLl]; omega)
              have h4 : (100000000000000000000 : Nat) ≤ natVal (digits.take (w + 1).toNat) := by
                calc (100000000000000000000 : Nat) = 10000 ^ 5 := by norm_num
                  _ ≤ 10000 ^ ((digits.take (w + 1).toNat).length - 1) := h2
                  _ ≤ natVal (digits.take (w + 1).toNat) := h1
              have hhiL : i ≤ (9223372036854775807 : Int) := hhi
              have h3 : i < (natVal (digits.take (w + 1).toNat) : Int) := by omega
              have h5 : (i : ℚ) < ((natVal (digits.take (w + 1).toNat) : Nat) : ℚ) := by
                exact_mod_cast h3
              have h6 : (i : ℚ) < magQ w digits := lt_trans h5 hbounds.1
              rw [if_neg (by linarith), if_neg (by linarith)]
            · by_cases hw0 : w + 1 ≤ 0
              · -- pure fraction, positive: 0 < value < 1 <= i
                norm_num [hisint]
                rw [if_neg hw4, if_pos hw0, if_pos hi]
                have hbounds := magQ_pure_frac w digits hw0 hnil hdig hhead
                have h1 : (1 : ℚ) ≤ (i : ℚ) := by exact_mod_cast hi
                rw [if_pos (by linarith)]
              · -- fractional with integral digits: local floor comparison
                norm_num [hisint]
                rw [if_neg hw4, if_neg hw0,
                  accLoop_eq _ 0 (by norm_num) (by unfold int64Max; norm_num)]
                simp only [zero_mul, zero_add]
                have hbounds := magQ_frac_bounds w digits (by omega) (by omega) hdig hlast
                by_cases hIle : (natVal (digits.take (w + 1).toNat) : Int) ≤ int64Max
                · rw [if_pos hIle]
                  norm_num
                  by_cases hfi : (natVal (digits.take (w + 1).toNat) : Int) < i
                  · rw [if_pos hfi]
                    have h1 : ((natVal (digits.take (w + 1).toNat) : Nat) : ℚ) + 1 ≤ (i : ℚ) := by
                      have : (natVal (digits.take (w + 1).toNat) : Int) + 1 ≤ i := by omega
                      exact_mod_cast this
                    rw [if_pos (by linarith [hbounds.2])]
                  · rw [if_neg hfi]
                    have h1 : (i : ℚ) ≤ ((natVal (digits.take (w + 1).toNat) : Nat) : ℚ) := by
                      have : i ≤ (natVal (digits.take (w + 1).toNat) : Int) := by omega
                      exact_mod_cast this
                    have h6 : (i : ℚ) < magQ w digits := lt_of_le_of_lt h1 hbounds.1
                    rw [if_neg (by linarith), if_neg (by linarith)]
                · rw [if_neg hIle]
                  norm_num
                  have hIleL : ¬ (natVal (digits.take (w + 1).toNat) : Int) ≤
                      (9223372036854775807 : Int) := hIle
                  have hhiL : i ≤ (9223372036854775807 : Int) := hhi
                  have h3 : i < (natVal (digits.take (w + 1).toNat) : Int) := by omega
                  have h5 : (i : ℚ) < ((natVal (digits.take (w + 1).toNat) : Nat) : ℚ) := by
                    exact_mod_cast h3
                  have h6 : (i : ℚ) < magQ w digits := lt_trans h5 hbounds.1
                  rw [if_neg (by linarith), if_neg (by linarith)]
        · rw [cmp_diff_sign_pos w digits hlen i (by omega)]
          have h1 : (i : ℚ) ≤ 0 := by exact_mod_cast not_lt.mp hi
          rw [if_neg (by linarith), if_neg (by linarith)]
    | true =>
        have hvq : PGNumeric.valQ (.finite true w digits) = -magQ w digits := by
          rw [valQ_eq_sign_mul_magQ]; simp
        have hmpos : 0 < magQ w digits := magQ_pos _ _ hnil hhead
        rw [hvq]
        by_cases hi : i < 0
        · rw [cmp_neg_eval w digits hlen i hi]
          by_cases hint : (digits.length : Int) ≤ w + 1
          · have hmint : magQ w digits = ((natVal (padTo digits (w + 1).toNat) : Nat) : ℚ) :=
              magQ_integral w digits hnil hint
            by_cases hw4 : w ≤ 4
            · rw [to_int64_spec_integral true w digits hnil hint hw4]
              have hcast : -(((natVal (padTo digits (w + 1).toNat) : Nat)) : ℚ) =
                  (((-(natVal (padTo digits (w + 1).toNat) : Int)) : Int) : ℚ) := by
                push_cast; ring
              by_cases hle : (natVal (padTo digits (w + 1).toNat) : Int) ≤ int64Max
              · rw [if_pos hle]
                norm_num
                rw [hmint, hcast, signCmpCast]
                split_ifs <;> omega
              · by_cases hmin : (natVal (padTo digits (w + 1).toNat) : Int) = int64Max + 1
                · rw [if_neg hle, if_pos ⟨by trivial, hmin⟩]
                  norm_num
                  have hminQ : -(((natVal (padTo digits (w + 1).toNat) : Nat)) : ℚ) =
                      ((int64Min : Int) : ℚ) := by
                    rw [hcast]
                    have : -(natVal (padTo digits (w + 1).toNat) : Int) = int64Min := by
                      rw [hmin, hMrel]
                    exact_mod_cast congrArg (fun x : Int => (x : ℚ)) this
                  rw [hmint, hminQ, signCmpCast]
                  split_ifs <;> omega
                · rw [if_neg hle, if_neg (fun h => hmin h.2)]
                  have hisint : num2int_numeric_is_integral (.finite true w digits) = true := by
                    simp only [num2int_numeric_is_integral]
                    rw [if_neg hlen, if_pos hint]
                  norm_num [hisint]
                  have hleL : ¬ (natVal (padTo digits (w + 1).toNat) : Int) ≤
                      (9223372036854775807 : Int) := hle
                  have hminL : (natVal (padTo digits (w + 1).toNat) : Int) ≠
                      (9223372036854775808 : Int) := hmin
                  have hloL : (-9223372036854775808 : Int) ≤ i := hlo
                  have h3 : -(natVal (padTo digits (w + 1).toNat) : Int) < i := by omega
                  have h5 : ((-(natVal (padTo digits (w + 1).toNat) : Int) : Int) : ℚ) < (i : ℚ) := by
                    exact_mod_cast h3
                  rw [hmint, if_pos (by rw [hcast]; linarith)]
            · rw [to_int64_none_of_bigweight true w digits hnil hint (by omega)]
              have hisint : num2int_numeric_is_integral (.finite true w digits) = true := by
                simp only [num2int_numeric_is_integral]
                rw [if_neg hlen, if_pos hint]
              norm_num [hisint]
              have hLlen : (padTo digits (w + 1).toNat).length = (w + 1).toNat :=
                padTo_length _ _ (by omega)
              have hpadne : padTo digits (w + 1).toNat ≠ [] := by
                intro h
                rw [h] at hLlen
                simp at hLlen
                omega
              have hpadh : (padTo digits (w + 1).toNat).head? ≠ some 0 := by
                rw [head?_padTo _ _ hnil]; exact hhead
              have h1 : 10000 ^ ((padTo digits (w + 1).toNat).length - 1) ≤
                  natVal (padTo digits (w + 1).toNat) :=
                natVal_ge_pow_of_head _ hpadne hpadh
              have h2 : (10000 : Nat) ^ 5 ≤ 10000 ^ ((padTo digits (w + 1).toNat).length - 1) :=
                Nat.pow_le_pow_right (by norm_num) (by rw [hLlen]; omega)
              have h4 : (100000000000000000000 : Nat) ≤ natVal (padTo digits (w + 1).toNat) := by
                calc (100000000000000000000 : Nat) = 10000 ^ 5 := by norm_num
                  _ ≤ 10000 ^ ((padTo digits (w + 1).toNat).length - 1) := h2
                  _ ≤ natVal (padTo digits (w + 1).toNat) := h1
              have hloL : (-9223372036854775808 : Int) ≤ i := hlo
              have h3 : -(natVal (padTo digits (w + 1).toNat) : Int) < i := by omega
              have h5 : ((-(natVal (padTo digits (w + 1).toNat) : Int) : Int) : ℚ) < (i : ℚ) := by
                exact_mod_cast h3
              have hcast : -(((natVal (padTo digits (w + 1).toNat) : Nat)) : ℚ) =
                  (((-(natVal (padTo digits (w + 1).toNat) : Int)) : Int) : ℚ) := by
                push_cast; ring
              rw [hmint, if_pos (by rw [hcast]; linarith)]
          · rw [to_int64_none_of_frac true w digits hnil (by omega)]
            have hisint : num2int_numeric_is_integral (.finite true w digits) = false := by
              simp only [num2int_numeric_is_integral]
              rw [if_neg hlen, if_neg hint]
            by_cases hw4 : 4 < w
            · norm_num [hisint]
              rw [if_pos hw4]
              have hbounds := magQ_frac_bounds w digits (by omega) (by omega) hdig hlast
              have hLl : (digits.take (w + 1).toNat).length = (w + 1).toNat := by
                rw [List.length_take]
                omega
              have htkne : digits.take (w + 1).toNat ≠ [] := by
                intro h
                rw [h] at hLl
                simp at hLl
                omega
              have htkh : (digits.take (w + 1).toNat).head? ≠ some 0 := by
                rw [head?_take _ _ (by omega : (w + 1).toNat ≠ 0)]
                exact hhead
              have h1 : 10000 ^ ((digits.take (w + 1).toNat).length - 1) ≤
                  natVal (digits.take (w + 1).toNat) :=
                natVal_ge_pow_of_head _ htkne htkh
              have h2 : (10000 : Nat) ^ 5 ≤ 10000 ^ ((digits.take (w + 1).toNat).length - 1) :=
                Nat.pow_le_pow_right (by norm_num) (by rw [hLl]; omega)
              have h4 : (100000000000000000000 : Nat) ≤ natVal (digits.take (w + 1).toNat) := by
                calc (100000000000000000000 : Nat) = 10000 ^ 5 := by norm_num
                  _ ≤ 10000 ^ ((digits.take (w + 1).toNat).length - 1) := h2
                  _ ≤ natVal (digits.take (w + 1).toNat) := h1
              have hloL : (-9223372036854775808 : Int) ≤ i := hlo
              have h3 : -(natVal (digits.take (w + 1).toNat) : Int) < i := by omega
              have h5 : ((-(natVal (digits.take (w + 1).toNat) : Int) : Int) : ℚ) < (i : ℚ) := by
                exact_mod_cast h3
              have hcast : -(((natVal (digits.take (w + 1).toNat) : Nat)) : ℚ) =
                  (((-(natVal (digits.take (w + 1).toNat) : Int)) : Int) : ℚ) := by
                push_cast; ring
              have h6 : -magQ w digits < (i : ℚ) := by
                push_cast at h5
                linarith [hbounds.1]
              rw [if_pos h6]
            · by_cases hw0 : w + 1 ≤ 0
              · norm_num [hisint]
                rw [if_neg hw4, if_pos hw0, if_neg (show ¬ (-1 : Int) < i by omega)]
                have hbounds := magQ_pure_frac w digits hw0 hnil hdig hhead
                have h1 : (i : ℚ) ≤ -1 := by exact_mod_cast (by omega : i ≤ (-1 : Int))
                rw [if_neg (by linarith), if_neg (by linarith)]
              · norm_num [hisint]
                rw [if_neg hw4, if_neg hw0,
                  accLoop_eq _ 0 (by norm_num) (by unfold int64Max; norm_num)]
                simp only [zero_mul, zero_add]
                have hbounds := magQ_frac_bounds w digits (by omega) (by omega) hdig hlast
                by_cases hIle : (natVal (digits.take (w + 1).toNat) : Int) ≤ int64Max
                · rw [if_pos hIle]
                  norm_num
                  by_cases hfi : -(natVal (digits.take (w + 1).toNat) : Int) - 1 < i
                  · rw [if_pos hfi]
                    have h1 : ((-(natVal (digits.take (w + 1).toNat) : Int) : Int) : ℚ) ≤ (i : ℚ) := by
                      exact_mod_cast (by omega : -(natVal (digits.take (w + 1).toNat) : Int) ≤ i)
                    have hcast : -(((natVal (digits.take (w + 1).toNat) : Nat)) : ℚ) =
                        (((-(natVal (digits.take (w + 1).toNat) : Int)) : Int) : ℚ) := by
                      push_cast; ring
                    have h6 : -magQ w digits < (i : ℚ) := by
                      push_cast at h1
                      linarith [hbounds.1]
                    rw [if_pos h6]
                  · rw [if_neg hfi]
                    have h1 : (i : ℚ) ≤ ((-(natVal (digits.take (w + 1).toNat) : Int) - 1 : Int) : ℚ) := by
                      exact_mod_cast (by omega : i ≤ -(natVal (digits.take (w + 1).toNat) : Int) - 1)
                    have hcast : ((-(natVal (digits.take (w + 1).toNat) : Int) - 1 : Int) : ℚ) =
                        -(((natVal (digits.take (w + 1).toNat) : Nat)) : ℚ) - 1 := by
                      push_cast; ring
                    have h6 : (i : ℚ) < -magQ w digits := by
                      push_cast at h1
                      linarith [hbounds.2]
                    rw [if_neg (by linarith), if_neg (by linarith)]
                · rw [if_neg hIle]
                  norm_num
                  have hIleL : ¬ (natVal (digits.take (w + 1).toNat) : Int) ≤
                      (9223372036854775807 : Int) := hIle
                  have hloL : (-9223372036854775808 : Int) ≤ i := hlo
                  have h3 : -(natVal (digits.take (w + 1).toNat) : Int) ≤ i := by omega
                  have h5 : ((-(natVal (digits.take (w + 1).toNat) : Int) : Int) : ℚ) ≤ (i : ℚ) := by
                    exact_mod_cast h3
                  have hcast : -(((natVal (digits.take (w + 1).toNat) : Nat)) : ℚ) =
                      (((-(natVal (digits.take (w + 1).toNat) : Int)) : Int) : ℚ) := by
                    push_cast; ring
                  have h6 : -magQ w digits < (i : ℚ) := by
                    push_cast at h5
                    linarith [hbounds.1]
                  rw [if_pos h6]
        · rw [cmp_diff_sign_neg w digits hlen i (by omega)]
          have h1 : (0 : ℚ) ≤ (i : ℚ) := by exact_mod_cast not_lt.mp hi
          rw [if_pos (by linarith)]

/-- C1: for every numeric value that is not NaN or Infinity (given by a
well-formed digit list) and every 64-bit integer `i`, the three-way
comparator `numeric_cmp_int64_direct` — reached through
`numeric_cmp_int2_internal`, `numeric_cmp_int4_internal` and
`numeric_cmp_int8_internal`, which merely widen their integer argument —
returns the sign of the exact rational value of the numeric minus `i`:
-1 when it is below `i`, 0 when equal, +1 when above. -/
theorem claim_C1_numeric_cmp_int64_direct_exact
    (neg : Bool) (w : Int) (digits : List Nat) (hWF : NumericWF digits)
    (i : Int) (hlo : int64Min ≤ i) (hhi : i ≤ int64Max) :
    numeric_cmp_int64_direct (.finite neg w digits) i =
      (if PGNumeric.valQ (.finite neg w digits) < (i : ℚ) then -1
       else if PGNumeric.valQ (.finite neg w digits) = (i : ℚ) then 0 else 1) ∧
    numeric_cmp_int2_internal (.finite neg w digits) i =
      numeric_cmp_int64_direct (.finite neg w digits) i ∧
    numeric_cmp_int4_internal (.finite neg w digits) i =
      numeric_cmp_int64_direct (.finite neg w digits) i ∧
    numeric_cmp_int8_internal (.finite neg w digits) i =
      numeric_cmp_int64_direct (.finite neg w digits) i :=
  ⟨numeric_cmp_int64_direct_exact neg w digits hWF i hlo hhi, rfl, rfl, rfl⟩

/-- Witness for C1 at the concrete value 10.5 (digits `[10, 5000]`,
weight 0) against the integer 10: the comparator answers +1, matching the
sign of 10.5 - 10. -/
theorem claim_C1_witness :
    numeric_cmp_int64_direct (.finite false 0 [10, 5000]) 10 =
      (if PGNumeric.valQ (.finite false 0 [10, 5000]) < ((10 : Int) : ℚ) then -1
       else if PGNumeric.valQ (.finite false 0 [10, 5000]) = ((10 : Int) : ℚ) then 0 else 1) :=
  (claim_C1_numeric_cmp_int64_direct_exact false 0 [10, 5000] (by decide) 10
    (by decide) (by decide)).1

theorem absValQ_eq_magQ (neg : Bool) (w : Int) (digits : List Nat)
    (hne : digits ≠ []) (hhead : digits.head? ≠ some 0) :
    |PGNumeric.valQ (.finite neg w digits)| = magQ w digits := by
  rw [valQ_eq_sign_mul_magQ]
  have hm := magQ_pos w digits hne hhead
  cases neg with
  | false => rw [if_neg (by simp), one_mul, abs_of_pos hm]
  | true => rw [if_pos rfl, neg_one_mul, abs_neg, abs_of_pos hm]

theorem floorAbsValQ_frac (neg : Bool) (w : Int) (digits : List Nat)
    (hWF : NumericWF digits) (hw0 : 0 ≤ w)
    (hfrac : w + 1 < (digits.length : Int)) :
    ⌊|PGNumeric.valQ (.finite neg w digits)|⌋ =
      (natVal (digits.take (w + 1).toNat) : Int) := by
  obtain ⟨hdig, hhead, hlast⟩ := hWF
  have hne : digits ≠ [] := by
    intro h
    rw [h] at hfrac
    simp at hfrac
    omega
  rw [absValQ_eq_magQ neg w digits hne hhead]
  have hb := magQ_frac_bounds w digits hw0 hfrac hdig hlast
  rw [Int.floor_eq_iff]
  constructor
  · push_cast
    exact le_of_lt hb.1
  · push_cast
    exact hb.2

/-- C2: for a fractional numeric (digits extending past the weight) whose
integral part fits in int64, floor extraction succeeds; a negative value
floors to one less than the negation of the truncated magnitude (rounding
toward negative infinity) while a positive value floors to the truncated
magnitude unchanged, and in both cases the result is the true floor of the
exact rational value. -/
theorem claim_C2_floor_to_int64_frac (neg : Bool) (w : Int) (digits : List Nat)
    (hWF : NumericWF digits) (hne : digits ≠ [])
    (hfrac : w + 1 < (digits.length : Int))
    (hfit : ⌊|PGNumeric.valQ (.finite neg w digits)|⌋ ≤ int64Max) :
    num2int_numeric_floor_to_int64 (.finite neg w digits) =
      some (if neg = true then -⌊|PGNumeric.valQ (.finite neg w digits)|⌋ - 1
            else ⌊|PGNumeric.valQ (.finite neg w digits)|⌋) ∧
    (if neg = true then -⌊|PGNumeric.valQ (.finite neg w digits)|⌋ - 1
     else ⌊|PGNumeric.valQ (.finite neg w digits)|⌋) =
      ⌊PGNumeric.valQ (.finite neg w digits)⌋ := by
  obtain ⟨hdig, hhead, hlast⟩ := hWF
  have habs : |PGNumeric.valQ (.finite neg w digits)| = magQ w digits :=
    absValQ_eq_magQ neg w digits hne hhead
  have hvq := valQ_eq_sign_mul_magQ neg w digits
  by_cases hw0 : w + 1 ≤ 0
  · -- no integral digits: floor is 0 or -1
    have hb := magQ_pure_frac w digits hw0 hne hdig hhead
    have hfl : ⌊|PGNumeric.valQ (.finite neg w digits)|⌋ = 0 := by
      rw [habs, Int.floor_eq_iff]
      constructor
      · push_cast
        exact le_of_lt hb.1
      · push_cast
        linarith [hb.2]
    rw [floor_spec_pure_frac neg w digits hne hw0, hfl]
    cases neg with
    | false =>
        have hfv : ⌊PGNumeric.valQ (.finite false w digits)⌋ = 0 := by
          rw [hvq]
          simp only [if_neg (by simp : ¬ false = true), one_mul]
          rw [Int.floor_eq_iff]
          constructor
          · push_cast
            exact le_of_lt hb.1
          · push_cast
            linarith [hb.2]
        rw [hfv]
        exact ⟨rfl, rfl⟩
    | true =>
        have hfv : ⌊PGNumeric.valQ (.finite true w digits)⌋ = -1 := by
          rw [hvq]
          simp only [if_pos rfl, neg_one_mul]
          rw [Int.floor_eq_iff]
          constructor
          · push_cast
            linarith [hb.2]
          · push_cast
            linarith [hb.1]
        rw [hfv]
        exact ⟨rfl, rfl⟩
  · -- integral digits present
    have hw0' : 0 ≤ w := by omega
    have hb := magQ_frac_bounds w digits hw0' hfrac hdig hlast
    have hfl : ⌊|PGNumeric.valQ (.finite neg w digits)|⌋ =
        (natVal (digits.take (w + 1).toNat) : Int) :=
      floorAbsValQ_frac neg w digits ⟨hdig, hhead, hlast⟩ hw0' hfrac
    have hw4 : w ≤ 4 := by
      by_contra hgt
      have hLl : (digits.take (w + 1).toNat).length = (w + 1).toNat := by
        rw [List.length_take]
        omega
      have htkne : digits.take (w + 1).toNat ≠ [] := by
        intro h
        rw [h] at hLl
        simp at hLl
        omega
      have htkh : (digits.take (w + 1).toNat).head? ≠ some 0 := by
        rw [head?_take _ _ (by omega : (w + 1).toNat ≠ 0)]
        exact hhead
      have h1 : 10000 ^ ((digits.take (w + 1).toNat).length - 1) ≤
          natVal (digits.take (w + 1).toNat) :=
        natVal_ge_pow_of_head _ htkne htkh
      have h2 : (10000 : Nat) ^ 5 ≤ 10000 ^ ((digits.take (w + 1).toNat).length - 1) :=
        Nat.pow_le_pow_right (by norm_num) (by rw [hLl]; omega)
      have h4 : (100000000000000000000 : Nat) ≤ natVal (digits.take (w + 1).toNat) := by
        calc (100000000000000000000 : Nat) = 10000 ^ 5 := by norm_num
          _ ≤ 10000 ^ ((digits.take (w + 1).toNat).length - 1) := h2
          _ ≤ natVal (digits.take (w + 1).toNat) := h1
      have hfitL : ⌊|PGNumeric.valQ (.finite neg w digits)|⌋ ≤
          (9223372036854775807 : Int) := hfit
      rw [hfl] at hfitL
      omega
    have hIle : (natVal (digits.take (w + 1).toNat) : Int) ≤ int64Max := by
      rw [hfl] at hfit
      exact hfit
    rw [floor_spec_frac neg w digits hw4 (by omega) hfrac, if_pos hIle, hfl]
    cases neg with
    | false =>
        have hfv : ⌊PGNumeric.valQ (.finite false w digits)⌋ =
            (natVal (digits.take (w + 1).toNat) : Int) := by
          rw [hvq]
          simp only [if_neg (by simp : ¬ false = true), one_mul]
          rw [Int.floor_eq_iff]
          constructor
          · push_cast
            exact le_of_lt hb.1
          · push_cast
            exact hb.2
        rw [hfv]
        exact ⟨rfl, rfl⟩
    | true =>
        have hfv : ⌊PGNumeric.valQ (.finite true w digits)⌋ =
            -(natVal (digits.take (w + 1).toNat) : Int) - 1 := by
          rw [hvq]
          simp only [if_pos rfl, neg_one_mul]
          rw [Int.floor_eq_iff]
          constructor
          · push_cast
            linarith [hb.2]
          · push_cast
            linarith [hb.1]
        rw [hfv]
        exact ⟨rfl, rfl⟩

/-- Witness for C2 at decimal -100.5 (digits `[100, 5000]`, weight 0,
negative): the floor extraction returns -101, one less than the negated
truncated magnitude 100, and not -100. -/
theorem claim_C2_witness :
    num2int_numeric_floor_to_int64 (.finite true 0 [100, 5000]) = some (-101) := by
  have hfl : ⌊|PGNumeric.valQ (.finite true 0 [100, 5000])|⌋ =
      (natVal ([100, 5000].take ((0 : Int) + 1).toNat) : Int) :=
    floorAbsValQ_frac true 0 [100, 5000] (by decide) (by decide) (by decide)
  have h := claim_C2_floor_to_int64_frac true 0 [100, 5000] (by decide) (by decide)
    (by decide) (by rw [hfl]; decide)
  rw [h.1, hfl]
  decide

/-- C3: in the simplifier, an ordering predicate whose constant has a
fractional part is rewritten by boundary adjustment: Greater and
GreaterOrEqual become GreaterOrEqual against floor + 1 unless the floor
already equals the column type's maximum, in which case the predicate
folds to false; Less and LessOrEqual become LessOrEqual against the floor
unchanged, folding to true at the maximum.  Concretely, for an int2 column
`col > 32767.5` folds to false and `col <= 32767.5` folds to true, and for
an int4 column `col > 10.5` becomes `col >= 11` and `col < 10.5` becomes
`col <= 10`. -/
theorem claim_C3_fractional_range_boundary (op : OpType) (t : Nat)
    (conv : ConstConversion) (hvalid : conv.valid = true)
    (hnh : conv.out_of_range_high = false) (hnl : conv.out_of_range_low = false)
    (hfrac : conv.has_fraction = true) (hbound : conv.int_val ≤ typeMaxOf t) :
    ((op = .gt ∨ op = .ge) →
      num2int_support_simplify op t conv =
        (if conv.int_val = typeMaxOf t then .boolConst false
         else .native (get_native_op_oid .ge t) t (conv.int_val + 1))) ∧
    ((op = .lt ∨ op = .le) →
      num2int_support_simplify op t conv =
        (if conv.int_val = typeMaxOf t then .boolConst true
         else .native (get_native_op_oid .le t) t conv.int_val)) ∧
    simplifyNumericPred .gt INT2OID (.finite false 1 [3, 2767, 5000]) =
      .boolConst false ∧
    simplifyNumericPred .le INT2OID (.finite false 1 [3, 2767, 5000]) =
      .boolConst true ∧
    simplifyNumericPred .gt INT4OID (.finite false 0 [10, 5000]) =
      .native (get_native_op_oid .ge INT4OID) INT4OID 11 ∧
    simplifyNumericPred .lt INT4OID (.finite false 0 [10, 5000]) =
      .native (get_native_op_oid .le INT4OID) INT4OID 10 := by
  refine ⟨?_, ?_, by decide, by decide, by decide, by decide⟩
  · intro hop
    by_cases heq : conv.int_val = typeMaxOf t
    · rw [if_pos heq]
      rcases hop with h | h <;> subst h <;>
        simp [num2int_support_simplify, compute_range_transform, hvalid, hnh, hnl,
          hfrac, le_of_eq heq.symm]
    · rw [if_neg heq]
      have hlt : ¬ typeMaxOf t ≤ conv.int_val := by omega
      rcases hop with h | h <;> subst h <;>
        simp [num2int_support_simplify, compute_range_transform, hvalid, hnh, hnl,
          hfrac, hlt]
  · intro hop
    by_cases heq : conv.int_val = typeMaxOf t
    · rw [if_pos heq]
      rcases hop with h | h <;> subst h <;>
        simp [num2int_support_simplify, compute_range_transform, hvalid, hnh, hnl,
          hfrac, le_of_eq heq.symm]
    · rw [if_neg heq]
      have hlt : ¬ typeMaxOf t ≤ conv.int_val := by omega
      rcases hop with h | h <;> subst h <;>
        simp [num2int_support_simplify, compute_range_transform, hvalid, hnh, hnl,
          hfrac, hlt]

/-- Witness for C3 at an int8 column with constant floor 5 and a fraction
(the abstract conversion record of a value like 5.5): `col > 5.5` becomes
the native int8 `>=` against 6. -/
theorem claim_C3_witness :
    num2int_support_simplify .gt INT8OID ⟨true, true, false, false, 5⟩ =
      .native (get_native_op_oid .ge INT8OID) INT8OID 6 := by
  have h := claim_C3_fractional_range_boundary .gt INT8OID
    ⟨true, true, false, false, 5⟩ (by decide) (by decide) (by decide) (by decide)
    (by decide)
  rw [h.1 (Or.inl rfl)]
  decide

/-- C4: in the simplifier, an out-of-range constant folds the predicate to
a boolean constant determined only by the operator kind and the overflow
direction — Equal to false, NotEqual to true, Less/LessOrEqual to true
exactly when the constant is above range, Greater/GreaterOrEqual to true
exactly when the constant is below range — and no native predicate is
produced. -/
theorem claim_C4_out_of_range_fold (op : OpType) (t : Nat)
    (conv : ConstConversion) (hop : op ≠ .unknown)
    (hoor : conv.out_of_range_high = true ∨ conv.out_of_range_low = true) :
    num2int_support_simplify op t conv =
      .boolConst (match op with
        | .eq => false
        | .ne => true
        | .lt => conv.out_of_range_high
        | .le => conv.out_of_range_high
        | .gt => conv.out_of_range_low
        | .ge => conv.out_of_range_low
        | .unknown => false) ∧
    (∀ oid t2 v, num2int_support_simplify op t conv ≠ .native oid t2 v) := by
  have h1 : num2int_support_simplify op t conv =
      .boolConst (match op with
        | .eq => false
        | .ne => true
        | .lt => conv.out_of_range_high
        | .le => conv.out_of_range_high
        | .gt => conv.out_of_range_low
        | .ge => conv.out_of_range_low
        | .unknown => false) := by
    rcases hoor with h | h <;>
      cases op <;>
        first
        | exact absurd rfl hop
        | simp [num2int_support_simplify, h]
  exact ⟨h1, by rw [h1]; intro oid t2 v; simp⟩

/-- Witness for C4: an int4 column compared with `<` against a constant
flagged above range folds to true. -/
theorem claim_C4_witness :
    num2int_support_simplify .lt INT4OID ⟨false, false, true, false, 0⟩ =
      .boolConst true := by
  have h := claim_C4_out_of_range_fold .lt INT4OID ⟨false, false, true, false, 0⟩
    (by decide) (Or.inl rfl)
  rw [h.1]

/-- Counterexample to C5: for an int8 column and the decimal constant
99999999999999999999 (digits `[9999, 9999, 9999, 9999, 9999]`, weight 4,
which is 10^20 - 1 and exceeds the int64 range from above), the simplifier
does NOT fold `intCol > constant` to true, contrary to the claim. -/
theorem claim_C5_counterexample :
    simplifyNumericPred .gt INT8OID
      (.finite false 4 [9999, 9999, 9999, 9999, 9999]) ≠ .boolConst true := by
  decide

/-- C5 (amended): for an int8 column compared against the decimal constant
99999999999999999999 (above the int64 range), the simplifier folds
`intCol > constant` to the boolean constant false — no int64 value exceeds
an above-range constant. -/
theorem claim_C5_amended_gt_huge_folds_false :
    natVal [9999, 9999, 9999, 9999, 9999] = 99999999999999999999 ∧
    simplifyNumericPred .gt INT8OID
      (.finite false 4 [9999, 9999, 9999, 9999, 9999]) = .boolConst false := by
  exact ⟨by decide, by decide⟩

/-- C6: in the simplifier, an Equal predicate with a fractional constant
folds to false, and an Equal predicate with an exact in-range integer
constant is rewritten to the native same-width integer equality with the
floored value; concretely `int4 col = 10.0` becomes the native `col = 10`
and `int4 col = 10.5` folds to false. -/
theorem claim_C6_equality_rewrite (t : Nat) (conv : ConstConversion)
    (hvalid : conv.valid = true)
    (hnh : conv.out_of_range_high = false) (hnl : conv.out_of_range_low = false) :
    (conv.has_fraction = true →
      num2int_support_simplify .eq t conv = .boolConst false) ∧
    (conv.has_fraction = false →
      num2int_support_simplify .eq t conv =
        .native (get_native_op_oid .eq t) t conv.int_val) ∧
    simplifyNumericPred .eq INT4OID (.finite false 0 [10]) =
      .native (get_native_op_oid .eq INT4OID) INT4OID 10 ∧
    simplifyNumericPred .eq INT4OID (.finite false 0 [10, 5000]) =
      .boolConst false := by
  refine ⟨?_, ?_, by decide, by decide⟩
  · intro hfrac
    simp [num2int_support_simplify, hvalid, hnh, hnl, hfrac]
  · intro hfrac
    simp [num2int_support_simplify, hvalid, hnh, hnl, hfrac]

/-- Witness for C6: equality of an int2 column against a conversion with
floor 7 and no fraction becomes the native int2 `=` against 7. -/
theorem claim_C6_witness :
    num2int_support_simplify .eq INT2OID ⟨true, false, false, false, 7⟩ =
      .native (get_native_op_oid .eq INT2OID) INT2OID 7 := by
  have h := claim_C6_equality_rewrite INT2OID ⟨true, false, false, false, 7⟩
    (by decide) (by decide) (by decide)
  exact h.2.1 (by decide)

/-- C7: for every integer operand, the comparators order special values by
the total-order convention: NaN and +Infinity compare greater than any
integer (+1) and -Infinity compares less (-1), for the numeric comparator
and all six float comparators alike. -/
theorem claim_C7_special_values_total_order : ∀ i : Int,
    numeric_cmp_int64_direct .nan i = 1 ∧
    numeric_cmp_int64_direct .pinf i = 1 ∧
    numeric_cmp_int64_direct .ninf i = -1 ∧
    float4_cmp_int2_internal .nan i = 1 ∧
    float4_cmp_int2_internal .pinf i = 1 ∧
    float4_cmp_int2_internal .ninf i = -1 ∧
    float4_cmp_int4_internal .nan i = 1 ∧
    float4_cmp_int4_internal .pinf i = 1 ∧
    float4_cmp_int4_internal .ninf i = -1 ∧
    float4_cmp_int8_internal .nan i = 1 ∧
    float4_cmp_int8_internal .pinf i = 1 ∧
    float4_cmp_int8_internal .ninf i = -1 ∧
    float8_cmp_int2_internal .nan i = 1 ∧
    float8_cmp_int2_internal .pinf i = 1 ∧
    float8_cmp_int2_internal .ninf i = -1 ∧
    float8_cmp_int4_internal .nan i = 1 ∧
    float8_cmp_int4_internal .pinf i = 1 ∧
    float8_cmp_int4_internal .ninf i = -1 ∧
    float8_cmp_int8_internal .nan i = 1 ∧
    float8_cmp_int8_internal .pinf i = 1 ∧
    float8_cmp_int8_internal .ninf i = -1 :=
  fun _ => ⟨rfl, rfl, rfl, rfl, rfl, rfl, rfl, rfl, rfl, rfl, rfl, rfl, rfl, rfl,
    rfl, rfl, rfl, rfl, rfl, rfl, rfl⟩

/-- C10: `num2int_numeric_to_int64` succeeds on the numeric value
-9223372036854775808 (digits `[922, 3372, 368, 5477, 5808]`, weight 4,
negative), returning exactly PG_INT64_MIN, and this is the only
well-formed input whose magnitude exceeds the positive int64 maximum on
which extraction still succeeds: any other successful extraction has
magnitude at most PG_INT64_MAX. -/
theorem claim_C10_int64_min_extraction :
    (num2int_numeric_to_int64 (.finite true 4 [922, 3372, 368, 5477, 5808]) =
      some int64Min ∧
     PGNumeric.valQ (.finite true 4 [922, 3372, 368, 5477, 5808]) =
      ((int64Min : Int) : ℚ)) ∧
    ∀ (neg : Bool) (w : Int) (digits : List Nat) (r : Int),
      NumericWF digits →
      num2int_numeric_to_int64 (.finite neg w digits) = some r →
      (int64Max : ℚ) < |PGNumeric.valQ (.finite neg w digits)| →
      neg = true ∧ r = int64Min ∧
        PGNumeric.valQ (.finite neg w digits) = ((int64Min : Int) : ℚ) := by
  constructor
  · constructor
    · decide
    · rw [valQ_eq_sign_mul_magQ,
        magQ_integral 4 [922, 3372, 368, 5477, 5808] (by decide) (by decide)]
      norm_num [int64Min]
      decide
  · intro neg w digits r hWF hsome hbig
    obtain ⟨hdig, hhead, hlast⟩ := hWF
    by_cases hnil : digits = []
    · subst hnil
      have : PGNumeric.valQ (.finite neg w []) = 0 := by
        simp [PGNumeric.valQ, natVal, natValFrom]
      rw [this] at hbig
      simp at hbig
      norm_num [int64Max] at hbig
    · have habs : |PGNumeric.valQ (.finite neg w digits)| = magQ w digits :=
        absValQ_eq_magQ neg w digits hnil hhead
      rw [habs] at hbig
      by_cases hint : (digits.length : Int) ≤ w + 1
      · by_cases hw4 : w ≤ 4
        · rw [to_int64_spec_integral neg w digits hnil hint hw4] at hsome
          have hmint : magQ w digits =
              ((natVal (padTo digits (w + 1).toNat) : Nat) : ℚ) :=
            magQ_integral w digits hnil hint
          rw [hmint] at hbig
          have hgt : int64Max < (natVal (padTo digits (w + 1).toNat) : Int) := by
            exact_mod_cast hbig
          rw [if_neg (by omega)] at hsome
          by_cases hsp : neg = true ∧
              (natVal (padTo digits (w + 1).toNat) : Int) = int64Max + 1
          · rw [if_pos hsp] at hsome
            refine ⟨hsp.1, by injection hsome with h; exact h.symm, ?_⟩
            rw [valQ_eq_sign_mul_magQ, hmint, if_pos hsp.1]
            have : ((natVal (padTo digits (w + 1).toNat) : Nat) : ℚ) =
                ((int64Max + 1 : Int) : ℚ) := by exact_mod_cast hsp.2
            rw [this]
            push_cast
            norm_num [int64Max, int64Min]
          · rw [if_neg hsp] at hsome
            exact absurd hsome (by simp)
        · rw [to_int64_none_of_bigweight neg w digits hnil hint (by omega)] at hsome
          exact absurd hsome (by simp)
      · rw [to_int64_none_of_frac neg w digits hnil (by omega)] at hsome
        exact absurd hsome (by simp)

/-!  Bit-length facts for the float rounding model. -/

theorem bitLenAux_congr : ∀ f1 f2 m : Nat, m ≤ f1 → m ≤ f2 →
    bitLenAux f1 m = bitLenAux f2 m := by
  intro f1
  induction f1 with
  | zero =>
      intro f2 m h1 h2
      have : m = 0 := by omega
      subst this
      cases f2 <;> simp [bitLenAux]
  | succ g ih =>
      intro f2 m h1 h2
      by_cases hm : m = 0
      · subst hm
        cases f2 <;> simp [bitLenAux]
      · obtain ⟨g2, rfl⟩ : ∃ k, f2 = k + 1 := ⟨f2 - 1, by omega⟩
        simp only [bitLenAux, if_neg hm]
        rw [ih g2 (m / 2) (by omega) (by omega)]

theorem bitLen_succ_def (m : Nat) (hm : m ≠ 0) : bitLen m = bitLen (m / 2) + 1 := by
  unfold bitLen
  obtain ⟨k, rfl⟩ : ∃ k, m = k + 1 := ⟨m - 1, by omega⟩
  show bitLenAux (k + 1) (k + 1) = bitLenAux ((k + 1) / 2) ((k + 1) / 2) + 1
  simp only [bitLenAux, if_neg hm]
  rw [bitLenAux_congr k ((k + 1) / 2) ((k + 1) / 2) (by omega) le_rfl]

theorem lt_two_pow_bitLen (m : Nat) : m < 2 ^ bitLen m := by
  induction m using Nat.strong_induction_on with
  | _ m ih =>
      by_cases hm : m = 0
      · subst hm
        simp [bitLen, bitLenAux]
      · rw [bitLen_succ_def m hm, pow_succ]
        have hp := ih (m / 2) (by omega)
        omega

theorem two_pow_bitLen_le (m : Nat) (hm : m ≠ 0) : 2 ^ (bitLen m - 1) ≤ m := by
  induction m using Nat.strong_induction_on with
  | _ m ih =>
      by_cases hm2 : m / 2 = 0
      · have hb : bitLen m = 1 := by
          rw [bitLen_succ_def m hm, hm2]
          simp [bitLen, bitLenAux]
        rw [hb]
        simp
        omega
      · have hge1 : 1 ≤ bitLen (m / 2) := by
          rw [bitLen_succ_def (m / 2) hm2]
          omega
        have hp := ih (m / 2) (by omega) hm2
        rw [bitLen_succ_def m hm]
        have hs : bitLen (m / 2) + 1 - 1 = (bitLen (m / 2) - 1) + 1 := by omega
        rw [hs, pow_succ]
        omega

theorem bitLen_le_of_lt (m b : Nat) (h : m < 2 ^ b) : bitLen m ≤ b := by
  by_cases hm : m = 0
  · subst hm
    simp [bitLen, bitLenAux]
  · by_contra hc
    have h1 : b ≤ bitLen m - 1 := by omega
    have h2 : 2 ^ b ≤ 2 ^ (bitLen m - 1) := Nat.pow_le_pow_right (by norm_num) h1
    have h3 := two_pow_bitLen_le m hm
    omega

theorem roundToBits_exact_lt (prec m : Nat) (h : m < 2 ^ prec) :
    roundToBits prec m = m := by
  unfold roundToBits
  rw [if_pos (bitLen_le_of_lt m prec h)]

theorem f32OfInt_exact (n : Int) (h : |n| ≤ 16777216) : f32OfInt n = (n : ℚ) := by
  have hna : n.natAbs ≤ 16777216 := by
    have h2 : (n.natAbs : Int) = |n| := (Int.abs_eq_natAbs n).symm
    omega
  have hmag : roundToBits 24 n.natAbs = n.natAbs := by
    by_cases he : n.natAbs = 16777216
    · rw [he]
      decide
    · exact roundToBits_exact_lt 24 n.natAbs (by norm_num; omega)
  unfold f32OfInt
  rw [hmag]
  have hcab : ((n.natAbs : Nat) : ℚ) = |(n : ℚ)| := by
    push_cast [Int.cast_natAbs]
    ring
  by_cases hn : n < 0
  · rw [if_pos hn, hcab, abs_of_neg (by exact_mod_cast hn)]
    ring
  · rw [if_neg hn, hcab, abs_of_nonneg (by exact_mod_cast not_lt.mp hn)]
    ring

/-- C8: for the float4-vs-int4 comparator, every integer `n` with
`|n| ≤ 2^24` compares equal exactly when the float is the exact value `n`;
for `|n| > 2^24` equality additionally requires the round-trip cast
`(int32)(float4) n` to reproduce `n`; in particular 16777217 (2^24 + 1)
rounds to the narrow float 16777216 and the comparator applied to that
float and 16777217 returns a nonzero result. -/
theorem claim_C8_float4_int4_precision_boundary :
    (∀ (f : FloatVal) (n : Int), |n| ≤ 16777216 →
      (float4_cmp_int4_internal f n = 0 ↔ f = .finite ((n : Int) : ℚ))) ∧
    (∀ (f : FloatVal) (n : Int), 16777216 < |n| →
      float4_cmp_int4_internal f n = 0 →
      ratTrunc (f32OfInt n) = n ∧ f = .finite (f32OfInt n)) ∧
    f32OfInt 16777217 = ((16777216 : Int) : ℚ) ∧
    float4_cmp_int4_internal (.finite (f32OfInt 16777217)) 16777217 ≠ 0 := by
  have hr1 : roundToBits 24 (Int.natAbs 16777217) = 16777216 := by decide
  have h2 : f32OfInt 16777217 = ((16777216 : Int) : ℚ) := by
    unfold f32OfInt
    rw [if_neg (by norm_num : ¬ (16777217 : Int) < 0), hr1]
    norm_num
  have h3 : ratTrunc ((16777216 : Int) : ℚ) = 16777216 := by
    unfold ratTrunc
    norm_num
  refine ⟨?_, ?_, h2, ?_⟩
  · intro f n h
    cases f with
    | nan => simp [float4_cmp_int4_internal]
    | pinf => simp [float4_cmp_int4_internal]
    | ninf => simp [float4_cmp_int4_internal]
    | finite q =>
        have hex : f32OfInt n = (n : ℚ) := f32OfInt_exact n h
        simp only [float4_cmp_int4_internal]
        rw [if_neg (fun hc => absurd hc.1 (by omega)), hex]
        constructor
        · intro h0
          by_cases h1 : q < (n : ℚ)
          · rw [if_pos h1] at h0
            omega
          · by_cases hg : (n : ℚ) < q
            · rw [if_neg h1, if_pos hg] at h0
              omega
            · have : q = (n : ℚ) := le_antisymm (not_lt.mp hg) (not_lt.mp h1)
              rw [this]
        · intro hf
          have hq : q = (n : ℚ) := by
            injection hf
          rw [hq, if_neg (lt_irrefl _), if_neg (lt_irrefl _)]
  · intro f n hbig h0
    cases f with
    | nan => simp [float4_cmp_int4_internal] at h0
    | pinf => simp [float4_cmp_int4_internal] at h0
    | ninf => simp [float4_cmp_int4_internal] at h0
    | finite q =>
        simp only [float4_cmp_int4_internal] at h0
        by_cases hrt : ratTrunc (f32OfInt n) = n
        · refine ⟨hrt, ?_⟩
          rw [if_neg (fun hc => hc.2 hrt)] at h0
          by_cases h1 : q < f32OfInt n
          · rw [if_pos h1] at h0
            omega
          · by_cases hg : f32OfInt n < q
            · rw [if_neg h1, if_pos hg] at h0
              omega
            · have : q = f32OfInt n := le_antisymm (not_lt.mp hg) (not_lt.mp h1)
              rw [this]
        · exfalso
          rw [if_pos ⟨hbig, hrt⟩] at h0
          by_cases h1 : q < f32OfInt n
          · rw [if_pos h1] at h0
            omega
          · by_cases hg : f32OfInt n < q
            · rw [if_neg h1, if_pos hg] at h0
              omega
            · rw [if_neg h1, if_neg hg] at h0
              by_cases h4 : f32OfInt n < f32OfInt n
              · rw [if_pos h4] at h0
                omega
              · rw [if_neg h4] at h0
                omega
  · simp only [float4_cmp_int4_internal, h2]
    rw [if_pos ⟨by norm_num, by rw [h3]; norm_num⟩,
      if_neg (lt_irrefl _), if_neg (lt_irrefl _), if_neg (lt_irrefl _)]
    norm_num

/-- Witness for C8: the float 5 compares equal to the int4 value 5, via
the first part of the precision-boundary theorem. -/
theorem claim_C8_witness :
    float4_cmp_int4_internal (.finite ((5 : Int) : ℚ)) 5 = 0 :=
  (claim_C8_float4_int4_precision_boundary.1 (.finite ((5 : Int) : ℚ)) 5
    (by decide)).mpr rfl

/-- Witness for C10: instantiating the uniqueness part at the
-9223372036854775808 numeric itself discharges its hypotheses and yields
the negative sign, the PG_INT64_MIN result and the exact value. -/
theorem claim_C10_witness :
    true = true ∧ int64Min = int64Min ∧
      PGNumeric.valQ (.finite true 4 [922, 3372, 368, 5477, 5808]) =
        ((int64Min : Int) : ℚ) := by
  have h := claim_C10_int64_min_extraction
  exact h.2 true 4 [922, 3372, 368, 5477, 5808] int64Min (by decide) (by decide)
    (by rw [h.1.2]; norm_num [int64Max, int64Min])

/-!  Digit-extraction and zero-stripping facts for the hash adapter. -/

theorem extractDigits_zero (fuel : Nat) : extractDigits fuel 0 = [] := by
  cases fuel <;> simp [extractDigits]

theorem extractDigits_length_le : ∀ fuel u : Nat, (extractDigits fuel u).length ≤ fuel := by
  intro fuel
  induction fuel with
  | zero => intro u; simp [extractDigits]
  | succ g ih =>
      intro u
      by_cases hu : u = 0
      · subst hu
        simp [extractDigits]
      · simp only [extractDigits, if_neg hu, List.length_cons]
        have := ih (u / 10000)
        omega

theorem extractDigits_ok : ∀ fuel u : Nat, 0 < u → u < 10000 ^ fuel →
    extractDigits fuel u ≠ [] ∧ (extractDigits fuel u).getLast? ≠ some 0 := by
  intro fuel
  induction fuel with
  | zero =>
      intro u h0 hB
      simp at hB
      omega
  | succ g ih =>
      intro u h0 hB
      have hu : u ≠ 0 := by omega
      simp only [extractDigits, if_neg hu]
      by_cases h10 : u / 10000 = 0
      · rw [h10, extractDigits_zero]
        have hlt : u < 10000 := by omega
        have : u % 10000 = u := Nat.mod_eq_of_lt hlt
        refine ⟨by simp, ?_⟩
        simp [this]
        omega
      · have hrec := ih (u / 10000) (by omega)
          (by
            have h1 : u < 10000 * 10000 ^ g := by
              have : (10000 : Nat) ^ (g + 1) = 10000 * 10000 ^ g := by ring
              omega
            exact Nat.div_lt_of_lt_mul h1)
        refine ⟨by simp, ?_⟩
        rw [getLast?_cons_ne_nil _ _ hrec.1]
        exact hrec.2

theorem dropWhile_append_singleton (xs : List Nat) (d : Nat) (hd : d ≠ 0) :
    (xs ++ [d]).dropWhile (fun x => x = 0) = xs.dropWhile (fun x => x = 0) ++ [d] := by
  induction xs with
  | nil => simp [List.dropWhile, hd]
  | cons x t ih =>
      by_cases hx : x = 0
      · subst hx
        simp only [List.cons_append, List.dropWhile]
        simpa using ih
      · simp only [List.cons_append, List.dropWhile]
        simp [hx]

theorem strip_cons_head (d : Nat) (t : List Nat) (hd : d ≠ 0) :
    stripTrailingZeros (d :: t) = d :: stripTrailingZeros t := by
  unfold stripTrailingZeros
  rw [List.reverse_cons, dropWhile_append_singleton _ d hd, List.reverse_append]
  simp

theorem dropWhile_idem (p : Nat → Bool) (l : List Nat) :
    (l.dropWhile p).dropWhile p = l.dropWhile p := by
  induction l with
  | nil => rfl
  | cons x t ih =>
      by_cases hx : p x = true
      · simp only [List.dropWhile, hx]
        exact ih
      · simp only [List.dropWhile]
        rw [Bool.not_eq_true] at hx
        rw [hx]
        simp only [List.dropWhile]
        rw [hx]

theorem strip_idem (ds : List Nat) :
    stripTrailingZeros (stripTrailingZeros ds) = stripTrailingZeros ds := by
  unfold stripTrailingZeros
  rw [List.reverse_reverse, dropWhile_idem]

theorem hash_numeric_model_eval (hashAny : List Nat → Nat) (s : Bool) (w : Int)
    (d : Nat) (t : List Nat) (hd : d ≠ 0) (h0 : 0 ≤ w) (h32 : w < 4294967296) :
    hash_numeric_model hashAny (.finite s w (d :: t)) =
      Nat.xor (hashAny (stripTrailingZeros (d :: t))) w.toNat := by
  simp only [hash_numeric_model]
  have hTW : ((d :: t).takeWhile (fun x => x = 0)).length = 0 := by
    simp [List.takeWhile_cons, hd]
  rw [hTW, if_neg (by simp), List.drop_zero]
  have hmod : (w - (0 : Nat)).emod 4294967296 = w := by
    have : w - (0 : Nat) = w := by push_cast; ring
    rw [this]
    exact Int.emod_eq_of_lt h0 h32
  rw [hmod]

theorem hash_numeric_extended_model_eval (hashAnyExt : List Nat → Nat → Nat)
    (s : Bool) (w : Int) (d : Nat) (t : List Nat) (seed : Nat)
    (hd : d ≠ 0) (h0 : 0 ≤ w) (h32 : w < 4294967296) :
    hash_numeric_extended_model hashAnyExt (.finite s w (d :: t)) seed =
      Nat.xor (hashAnyExt (stripTrailingZeros (d :: t)) seed) w.toNat := by
  simp only [hash_numeric_extended_model]
  have hTW : ((d :: t).takeWhile (fun x => x = 0)).length = 0 := by
    simp [List.takeWhile_cons, hd]
  rw [hTW, if_neg (by simp), List.drop_zero]
  have hmod : (w - (0 : Nat)).emod 4294967296 = w := by
    have : w - (0 : Nat) = w := by push_cast; ring
    rw [this]
    exact Int.emod_eq_of_lt h0 h32
  rw [hmod]

/-- C9: for every int64-representable `n`, hashing `n` through the
integer-as-decimal adapter yields exactly what the decimal type's native
hash produces for the numerically equal decimal value, for the unseeded
32-bit variant and the seeded extended variant alike, whatever digit hash
the host supplies (including n = 0 and n = PG_INT64_MIN). -/
theorem claim_C9_hash_int64_as_numeric_consistent
    (hashAny : List Nat → Nat) (hashAnyExt : List Nat → Nat → Nat)
    (n : Int) (hlo : int64Min ≤ n) (hhi : n ≤ int64Max) (seed : Nat) :
    hash_int64_as_numeric_internal hashAny n =
      hash_numeric_model hashAny (numericOfInt64 n) ∧
    hash_int64_as_numeric_extended_internal hashAnyExt n seed =
      hash_numeric_extended_model hashAnyExt (numericOfInt64 n) seed := by
  by_cases hz : n = 0
  · subst hz
    constructor
    · simp [hash_int64_as_numeric_internal, hash_numeric_model, numericOfInt64]
    · simp [hash_int64_as_numeric_extended_internal, hash_numeric_extended_model,
        numericOfInt64]
  · have hloL : (-9223372036854775808 : Int) ≤ n := hlo
    have hhiL : n ≤ (9223372036854775807 : Int) := hhi
    have hu0 : 0 < n.natAbs := by omega
    have huB : n.natAbs < 10000 ^ 5 := by
      have h1 : n.natAbs ≤ 9223372036854775808 := by omega
      have h2 : (10000 : Nat) ^ 5 = 100000000000000000000 := by norm_num
      omega
    have huval : (if n < 0 then
        (if n = int64Min then (9223372036854775808 : Nat) else (-n).toNat)
        else n.toNat) = n.natAbs := by
      by_cases hn : n < 0
      · by_cases hmn : n = int64Min
        · rw [if_pos hn, if_pos hmn, hmn]
          decide
        · rw [if_pos hn, if_neg hmn]
          omega
      · rw [if_neg hn]
        omega
    have hex := extractDigits_ok 5 n.natAbs hu0 huB
    have hlenle := extractDigits_length_le 5 n.natAbs
    have hrevne : (extractDigits 5 n.natAbs).reverse ≠ [] := by
      intro h
      exact hex.1 (by simpa using h)
    have hrevh : (extractDigits 5 n.natAbs).reverse.head? ≠ some 0 := by
      rw [List.head?_reverse]
      exact hex.2
    obtain ⟨d, t, hdt⟩ : ∃ d t, (extractDigits 5 n.natAbs).reverse = d :: t := by
      cases hds : (extractDigits 5 n.natAbs).reverse with
      | nil => exact absurd hds hrevne
      | cons a b => exact ⟨a, b, rfl⟩
    have hd0 : d ≠ 0 := by
      rw [hdt] at hrevh
      simpa using hrevh
    have hlen1 : 1 ≤ (extractDigits 5 n.natAbs).reverse.length := by
      rw [hdt]
      simp
    have hlen5 : (extractDigits 5 n.natAbs).reverse.length ≤ 5 := by
      rw [List.length_reverse]
      exact hlenle
    have hnum : numericOfInt64 n = .finite (decide (n < 0))
        (((extractDigits 5 n.natAbs).reverse.length : Int) - 1)
        (stripTrailingZeros (extractDigits 5 n.natAbs).reverse) := by
      simp only [numericOfInt64, if_neg hz]
    have hstrip : stripTrailingZeros (extractDigits 5 n.natAbs).reverse =
        d :: stripTrailingZeros t := by
      rw [hdt]
      exact strip_cons_head d t hd0
    have hstrip2 : stripTrailingZeros (stripTrailingZeros
        (extractDigits 5 n.natAbs).reverse) =
        stripTrailingZeros (extractDigits 5 n.natAbs).reverse :=
      strip_idem _
    have hw0 : (0 : Int) ≤ ((extractDigits 5 n.natAbs).reverse.length : Int) - 1 := by
      omega
    have hw32 : ((extractDigits 5 n.natAbs).reverse.length : Int) - 1 < 4294967296 := by
      omega
    have htn : (((extractDigits 5 n.natAbs).reverse.length : Int) - 1).toNat =
        (extractDigits 5 n.natAbs).reverse.length - 1 := by
      omega
    constructor
    · have hL : hash_int64_as_numeric_internal hashAny n =
          Nat.xor (hashAny (stripTrailingZeros (extractDigits 5 n.natAbs).reverse))
            ((extractDigits 5 n.natAbs).reverse.length - 1) := by
        simp only [hash_int64_as_numeric_internal, if_neg hz]
        rw [huval]
      rw [hL, hnum, hstrip,
        hash_numeric_model_eval hashAny _ _ d (stripTrailingZeros t) hd0 hw0 hw32,
        ← hstrip, hstrip2, htn]
    · have hL : hash_int64_as_numeric_extended_internal hashAnyExt n seed =
          Nat.xor (hashAnyExt (stripTrailingZeros (extractDigits 5 n.natAbs).reverse)
              seed)
            ((extractDigits 5 n.natAbs).reverse.length - 1) := by
        simp only [hash_int64_as_numeric_extended_internal, if_neg hz]
        rw [huval]
      rw [hL, hnum, hstrip,
        hash_numeric_extended_model_eval hashAnyExt _ _ d (stripTrailingZeros t) seed
          hd0 hw0 hw32,
        ← hstrip, hstrip2, htn]

/-- Witness for C9 at n = 10 with the digit-value function standing in for
the host hash and seed 3. -/
theorem claim_C9_witness :
    hash_int64_as_numeric_internal natVal 10 =
      hash_numeric_model natVal (numericOfInt64 10) ∧
    hash_int64_as_numeric_extended_internal (fun ds s => natVal ds + s) 10 3 =
      hash_numeric_extended_model (fun ds s => natVal ds + s) (numericOfInt64 10) 3 :=
  claim_C9_hash_int64_as_numeric_consistent natVal (fun ds s => natVal ds + s) 10
    (by decide) (by decide) 3
